import Mathlib

/-!
# Verification of the eCTF-2025-MSU channel key-derivation design

Shallow embedding of `src/design/ectf25_design/__init__.py` (the
`ChannelKeyDerivation` tree engine and `gen_secrets`), together with proofs
of the specification claims about it.

Conventions of the embedding:
* Python `bytes` are `List Nat` (one entry per byte).
* The MD5 primitive (`Crypto.Hash.MD5`, external to the repository) is an
  abstract function `md5 : List Nat → List Nat`; nothing in the claims
  depends on its internals, only on how the code composes it.
* Fallible code (a Python `raise`, a failed `assert`) returns `none` /
  `Except.error`.
* Python `while` loops that the source does not structurally bound are
  embedded with an explicit fuel argument; the termination claim is proved
  as "every large enough fuel yields `some _`".
-/

/-- Python bytes, one `Nat` (0..255) per byte. -/
abbrev Bytes := List Nat

/-- [source: `ChannelTreeNode` dataclass] a node number together with its key. -/
structure ChannelTreeNode where
  node_num : Nat
  key : Bytes
  deriving Repr, DecidableEq

/-- [source: `ChannelKeyDerivation` dataclass] the per-channel tree engine
state: the 16-byte channel root and the tree height (default 64). -/
structure ChannelKeyDerivation where
  root : Bytes
  height : Nat := 64
  deriving Repr

namespace ChannelKeyDerivation

/-! ## Node covers (`get_channel_node_cover`) -/

/-- Depth of node `n` in a 1-based level-order numbering:
Python `node_num.bit_length() - 1` for `n ≥ 1`. -/
def nodeDepth (n : Nat) : Nat := Nat.log2 n

/-- Number of leaves below a node of depth `nodeDepth n` in a height-`H` tree:
Python `2 ** (height - d)`. -/
def nodeSpan (H n : Nat) : Nat := 2 ^ (H - nodeDepth n)

/-- First leaf (timestamp) covered by node `n`: Python
`span * level_index` with `level_index = node_num - 2**d`. -/
def nodeLo (H n : Nat) : Nat := (n - 2 ^ nodeDepth n) * nodeSpan H n

/-- Last leaf (timestamp) covered by node `n`: Python `skipped + span - 1`. -/
def nodeHi (H n : Nat) : Nat := nodeLo H n + nodeSpan H n - 1

/-- Node numbers that exist in the height-`H` tree (root `1` .. last leaf
`2^(H+1) - 1`). -/
def validNode (H n : Nat) : Prop := 1 ≤ n ∧ n < 2 ^ (H + 1)

/-- [source: `get_channel_node_cover`, lines 27-40] leaf range covered by node
`node_num`, as the pair of `int`s Python builds.

For `1 ≤ n < 2^(H+1)` this is the pure integer computation of the source
(`d = bit_length - 1`, `level_index = n - 2^d`, `span = 2^(H-d)`,
`(skipped, skipped + span - 1)`).

The algorithm also evaluates the expression at two degenerate arguments, and
there Python falls into `float` arithmetic because `d` exceeds `height`
(`2 ** (height - d)` is fractional):
* `n = 0` (queried as parent of the root while climbing): Python computes
  `d = -1`, `span = 2^(H+1)`, `level_index = -1/2`, giving exactly
  `(-2^H, -2^H + 2^(H+1) - 1)`; the second component rounds to the float
  `2^H` for `H = 64`.  Every use compares this pair with a range whose lower
  bound is a nonnegative int, and `-2^H ≥ start` is false, so only the sign
  of the first component matters; we embed the pair as `(-2^H, 2^H)`.
* `n = 2^(H+1)` (queried as right neighbour after emitting the last leaf):
  Python computes `span = 1/2`, `level_index = 0`, giving `(0.0, -0.5)`.
  Compared with an integer range `(start, end)` this behaves exactly like
  `(0, -1)`: the first test is `0 ≥ start`, the second is true.  We embed it
  as `(0, -1)`.  (Node numbers beyond `2^(H+1)` are never queried; the same
  `(0, -1)` stands for them.) -/
def nodeCoverPy (H n : Nat) : Int × Int :=
  if n = 0 then (-(2 ^ H : Int), (2 ^ H : Int))
  else if n < 2 ^ (H + 1) then ((nodeLo H n : Int), (nodeHi H n : Int))
  else ((0 : Int), (-1 : Int))

/-- Method form of `nodeCoverPy` on the dataclass (uses only `self.height`). -/
def get_channel_node_cover (self : ChannelKeyDerivation) (node_num : Nat) :
    Int × Int :=
  nodeCoverPy self.height node_num

/-- [source: `get_channel_nodes_cover`, lines 42-53] bounding box (min of
lower bounds, max of upper bounds) of a list of node covers; raising on the
empty list is embedded as `none`. -/
def nodesCoverCore (H : Nat) : List Nat → Option (Int × Int)
  | [] => none
  | n :: rest =>
      some (rest.foldl
        (fun c m => (min c.1 (nodeCoverPy H m).1, max c.2 (nodeCoverPy H m).2))
        (nodeCoverPy H n))

/-- Method form of `nodesCoverCore`. -/
def get_channel_nodes_cover (self : ChannelKeyDerivation) (nodes : List Nat) :
    Option (Int × Int) :=
  nodesCoverCore self.height nodes

/-! ## The cover loop (`get_covering_nodes`) -/

/-- [source: `get_covering_nodes`, line 71] `in_range(r1, r2)`:
`r1[0] >= r2[0] and r1[1] <= r2[1]`, i.e. `r1` lies inside `r2`. -/
def inRange (r1 r2 : Int × Int) : Bool :=
  r1.1 ≥ r2.1 && r1.2 ≤ r2.2

/-- [source: `get_covering_nodes`, lines 82-86] the inner ascending loop:
climb to the parent while the parent's cover still lies inside the decode
range.  Terminates because the guard forces `parent ≠ 0` (the cover of node
`0` has a negative lower bound) and halving decreases. -/
def climb (H s e : Nat) (parent : Nat) : Nat :=
  if h : inRange (nodeCoverPy H (parent / 2)) ((s : Int), (e : Int)) then
    climb H s e (parent / 2)
  else parent
termination_by parent
decreasing_by
  refine Nat.div_lt_self ?_ (by omega)
  rcases Nat.eq_zero_or_pos parent with hp | hp
  · exfalso
    rw [hp] at h
    simp only [Nat.zero_div, nodeCoverPy, reduceIte, inRange, ge_iff_le,
      Bool.and_eq_true, decide_eq_true_eq] at h
    have h1 : (0 : Int) < 2 ^ H := by positivity
    omega
  · exact hp

/-- [source: `get_covering_nodes`, lines 105-109] the inner descending loop:
starting from a node, keep moving to the left child until the cover lies
inside the decode range.  The Python loop is unbounded; it is embedded with
fuel (`none` = the loop would run past the given bound). -/
def descendLoop (H s e : Nat) : Nat → Nat → Option Nat
  | 0, _ => none
  | fuel + 1, iter =>
      if inRange (nodeCoverPy H iter) ((s : Int), (e : Int)) then some iter
      else descendLoop H s e fuel (iter * 2)

/-- [source: `get_covering_nodes`, lines 76-116] the outer `while` loop, one
fuel unit per iteration (`none` = fuel exhausted or the Python `assert` on
line 103 failed).  State: emitted `nodes`, the `descending` flag and
`iter_node`.  The inner descending loop gets fuel `H + 1`, which the
termination proof shows is never exhausted in reachable states. -/
def coverLoop (H s e : Nat) : Nat → List Nat → Bool → Nat → Option (List Nat)
  | 0, _, _, _ => none
  | fuel + 1, nodes, descending, iterNode =>
      if 0 < nodes.length ∧ nodesCoverCore H nodes = some ((s : Int), (e : Int)) then
        some nodes
      else if descending = false then
        let parent := climb H s e iterNode
        let nodes2 := nodes ++ [parent]
        if parent = 1 then some nodes2
        else if inRange (nodeCoverPy H (parent + 1)) ((s : Int), (e : Int)) then
          coverLoop H s e fuel nodes2 false (parent + 1)
        else
          coverLoop H s e fuel nodes2 true (parent + 1)
      else
        if iterNode * 2 < 2 ^ (H + 1) then
          match descendLoop H s e (H + 1) (iterNode * 2) with
          | some found => coverLoop H s e fuel (nodes ++ [found]) true (found + 1)
          | none => none
        else none

/-- [source: `get_covering_nodes`, lines 55-116] node numbers covering
`[start, end]`.  The `assert` on lines 60-66 (note: it hard-codes `2**64`,
not `2**height`) is embedded as the `if`; `none` = `AssertionError` or a
non-terminating loop.  The outer loop emits one node per iteration and, as
proved below, covers at least one new timestamp each time, so fuel
`e + 2 - start` (emissions plus the final guard check) is enough. -/
def get_covering_nodes (self : ChannelKeyDerivation) (start e : Nat) :
    Option (List Nat) :=
  if start ≤ 2 ^ 64 - 1 ∧ e ≤ 2 ^ 64 - 1 ∧ start ≤ e then
    coverLoop self.height start e (e + 2 - start) [] false (start + 2 ^ self.height)
  else none

/-! ## Key derivation (`get_key_for_node` and friends) -/

/-- [source: `get_left_subkey`, line 118-119] `MD5(key ‖ b"L")`; `0x4C = 76`. -/
def get_left_subkey (md5 : Bytes → Bytes) (key : Bytes) : Bytes :=
  md5 (key ++ [76])

/-- [source: `get_right_subkey`, line 121-122] `MD5(key ‖ b"R")`; `0x52 = 82`. -/
def get_right_subkey (md5 : Bytes → Bytes) (key : Bytes) : Bytes :=
  md5 (key ++ [82])

/-- [source: `get_key_for_node`, lines 126-131] the list `traversal` built by
repeatedly pushing `n % 2` and halving until reaching the root: the bits of
`n` below its leading 1, least-significant first. -/
def traversalBits (n : Nat) : List Nat :=
  if n ≤ 1 then [] else n % 2 :: traversalBits (n / 2)
decreasing_by exact Nat.div_lt_self (by omega) (by omega)

/-- [source: `get_key_for_node`, lines 136-143] walk a bit list from a key,
taking the left subkey on `0` and the right subkey otherwise. -/
def applyBits (md5 : Bytes → Bytes) (key : Bytes) (bits : List Nat) : Bytes :=
  bits.foldl
    (fun k t => if t = 0 then get_left_subkey md5 k else get_right_subkey md5 k)
    key

/-- [source: `get_key_for_node`, lines 124-145] value computed for a node:
walk from the root along the reversed traversal.  This is the pure value the
function returns; the debug `print(...decode())` statements it also executes
are modelled separately by `get_key_for_node_run` (they can raise). -/
def get_key_for_node (md5 : Bytes → Bytes) (self : ChannelKeyDerivation)
    (node_num : Nat) : ChannelTreeNode :=
  { node_num := node_num
    key := applyBits md5 self.root (traversalBits node_num).reverse }

/-- [source: `get_frame_key`, lines 162-166] leaf key for a frame number:
the key of node `frame_num + 2^height`. -/
def get_frame_key (md5 : Bytes → Bytes) (self : ChannelKeyDerivation)
    (frame_num : Nat) : Bytes :=
  (self.get_key_for_node md5 (frame_num + 2 ^ self.height)).key

/-- [source: `get_channel_keys`, lines 147-156] covering nodes of the range,
each paired with its key (the `for` loop appends `get_key_for_node` of each
node number, i.e. a map).  `none` = `get_covering_nodes` raised. -/
def get_channel_keys (md5 : Bytes → Bytes) (self : ChannelKeyDerivation)
    (start e : Nat) : Option (List ChannelTreeNode) :=
  (self.get_covering_nodes start e).map
    (fun node_numbers => node_numbers.map (self.get_key_for_node md5))

/-- [source: `get_frame_key_from_cover`, lines 186-201] the scan for the
cover node closest to the leaf: walk `curr_node` from the root along the
traversal (index `idx = i + 1`), remembering the last node of the list whose
`node_num` equals `curr_node` together with its index.

(The initial root check on line 186 uses Python `is`; for the interned small
int `1` that coincides with `==`.) -/
def findClosestAux (nodes : List ChannelTreeNode) :
    List Nat → Nat → Nat → Option (ChannelTreeNode × Nat) →
      Option (ChannelTreeNode × Nat)
  | [], _, _, closest => closest
  | b :: rest, idx, curr, closest =>
      let curr2 := if b = 0 then curr * 2 else curr * 2 + 1
      let closest2 :=
        match nodes.filter (fun k => k.node_num == curr2) with
        | [] => closest
        | kk :: _ => some (kk, idx + 1)
      findClosestAux nodes rest (idx + 1) curr2 closest2

/-- [source: `get_frame_key_from_cover`, lines 169-218] derive the key of the
leaf `frame_num + 2^height` from a list of keyed cover nodes: find the cover
node on the root-to-leaf path that is deepest (`closest_node`), then walk the
remaining traversal from its key.  `none` = the `raise` on line 205. -/
def get_frame_key_from_cover (md5 : Bytes → Bytes)
    (self : ChannelKeyDerivation) (nodes : List ChannelTreeNode)
    (frame_num : Nat) : Option Bytes :=
  let node_num := frame_num + 2 ^ self.height
  let traversal := (traversalBits node_num).reverse
  let closest0 : Option (ChannelTreeNode × Nat) :=
    match nodes.filter (fun k => k.node_num == 1) with
    | [] => none
    | kk :: _ => some (kk, 0)
  match findClosestAux nodes traversal 0 1 closest0 with
  | none => none
  | some (closest, closestIdx) =>
      some (applyBits md5 closest.key (traversal.drop closestIdx))

/-! ## The executed (effectful) body of `get_key_for_node`

`get_key_for_node` as written also runs two kinds of debug statements:
`print(f"ROOT KEY: {self.root.decode()}")` (line 134) and
`print(f"NEXT KEY: {curr_key.decode()}")` (line 143) after each derivation
step.  `bytes.decode()` decodes as UTF-8 and raises `UnicodeDecodeError`
when the key bytes are not valid UTF-8.  `get_key_for_node_run` models the
executed body: the value of `get_key_for_node` when every printed key
decodes, and `Except.error` at the first key that does not. -/

/-- UTF-8 continuation byte (`0x80..0xBF`). -/
def utf8Cont (b : Nat) : Bool := 128 ≤ b && b ≤ 191

/-- Extra constraint on the first continuation byte after `0xE0/0xED`
(RFC 3629: `E0 A0..BF`, `ED 80..9F`). -/
def utf8SecondE (b c1 : Nat) : Bool :=
  if b = 224 then 160 ≤ c1 else if b = 237 then c1 ≤ 159 else true

/-- Extra constraint on the first continuation byte after `0xF0/0xF4`
(RFC 3629: `F0 90..BF`, `F4 80..8F`). -/
def utf8SecondF (b c1 : Nat) : Bool :=
  if b = 240 then 144 ≤ c1 else if b = 244 then c1 ≤ 143 else true

/-- Structural-fuel UTF-8 validity check (RFC 3629 well-formed byte
sequences); this is the success condition of Python `bytes.decode()`. -/
def utf8ValidFuel : Nat → List Nat → Bool
  | 0, l => l.isEmpty
  | _ + 1, [] => true
  | fuel + 1, b :: l =>
      if b ≤ 127 then utf8ValidFuel fuel l
      else if b < 194 then false
      else if b ≤ 223 then
        match l with
        | c1 :: l2 => utf8Cont c1 && utf8ValidFuel fuel l2
        | [] => false
      else if b ≤ 239 then
        match l with
        | c1 :: c2 :: l3 =>
            utf8SecondE b c1 && utf8Cont c1 && utf8Cont c2 && utf8ValidFuel fuel l3
        | _ => false
      else if b ≤ 244 then
        match l with
        | c1 :: c2 :: c3 :: l4 =>
            utf8SecondF b c1 && utf8Cont c1 && utf8Cont c2 && utf8Cont c3 &&
              utf8ValidFuel fuel l4
        | _ => false
      else false

/-- Python `bytes.decode()` succeeds exactly on well-formed UTF-8. -/
def utf8Valid (l : Bytes) : Bool := utf8ValidFuel l.length l

/-- The derivation walk of `get_key_for_node` with the effect of the debug
`print(f"NEXT KEY: {curr_key.decode()}")` after every step: errors at the
first derived key that is not valid UTF-8. -/
def applyBitsRun (md5 : Bytes → Bytes) : Bytes → List Nat → Except String Bytes
  | key, [] => Except.ok key
  | key, t :: rest =>
      let key2 := if t = 0 then get_left_subkey md5 key else get_right_subkey md5 key
      if utf8Valid key2 then applyBitsRun md5 key2 rest
      else Except.error "UnicodeDecodeError"

/-- [source: `get_key_for_node`, lines 124-145, as executed] the body
including the debug prints: line 134 decodes `self.root` (raising unless it
is valid UTF-8), and line 143 decodes every derived key. -/
def get_key_for_node_run (md5 : Bytes → Bytes) (self : ChannelKeyDerivation)
    (node_num : Nat) : Except String ChannelTreeNode :=
  if utf8Valid self.root then
    match applyBitsRun md5 self.root (traversalBits node_num).reverse with
    | Except.ok k => Except.ok { node_num := node_num, key := k }
    | Except.error msg => Except.error msg
  else Except.error "UnicodeDecodeError"

end ChannelKeyDerivation

/-! ## `gen_secrets` -/

/-- Minimal JSON value model for the object `gen_secrets` serializes. -/
inductive Json where
  | str : String → Json
  | obj : List (String × Json) → Json
  deriving Repr

/-- Top-level keys of a JSON object, in order. -/
def Json.topKeys : Json → List String
  | Json.str _ => []
  | Json.obj l => l.map Prod.fst

/-- Python `dict` assignment `d[k] = v`: overwrite in place if the key
exists, else append (insertion order preserved). -/
def dictInsert (d : List (Nat × String)) (k : Nat) (v : String) :
    List (Nat × String) :=
  if d.any (fun p => p.1 == k) then
    d.map (fun p => if p.1 == k then (k, v) else p)
  else d ++ [(k, v)]

/-- `bytes.hex()`: two lowercase hex digits per byte. -/
def bytesHex (bs : Bytes) : String :=
  String.mk (bs.flatMap (fun b => [Nat.digitChar (b / 16), Nat.digitChar (b % 16)]))

/-- [source: `gen_secrets`, lines 228-266].

The CSPRNG is an oracle `rand i n` = the `n` bytes returned by the `i`-th
call of `Crypto.Random.get_random_bytes` (one call per channel, then one for
`decoder_dk`); the Ed25519 keypair generation and DER export
(`Crypto.PublicKey.ECC`, external) are the abstract strings `hostKeyPriv`
and `hostKeyPub`.

Returns the JSON object (the value `json.dumps` serializes; the final UTF-8
`.encode()` is not modelled) *and* the final state of the `channels` list:
line 241 (`channels.append(0)`) mutates the caller-supplied list in place,
so the second component is the caller's list after the call. -/
def gen_secrets (rand : Nat → Nat → Bytes) (hostKeyPriv hostKeyPub : String)
    (channels : List Nat) : Json × List Nat :=
  let channels2 := channels ++ [0]
  let acc := channels2.foldl
    (fun (st : List (Nat × String) × Nat) ch =>
      (dictInsert st.1 ch (bytesHex (rand st.2 16)), st.2 + 1))
    ([], 0)
  let channel_secrets := acc.1
  let decoder_dk := bytesHex (rand acc.2 32)
  (Json.obj
      [("channels",
         Json.obj (channel_secrets.map (fun p => (toString p.1, Json.str p.2)))),
       ("decoder_dk", Json.str decoder_dk),
       ("host_key_priv", Json.str hostKeyPriv),
       ("host_key_pub", Json.str hostKeyPub)],
   channels2)

/-! ## Specification-side characterization of the cover

The canonical (greedy) decomposition of `[s, e]` into maximal aligned
blocks, used to characterize what the loop emits and prove the claims. -/

namespace CoverSpec

open ChannelKeyDerivation

/-- Largest block exponent at position `s`: the greatest `k ≤ H` with
`2^k ∣ s` and `s + 2^k - 1 ≤ e` (`k = 0` always qualifies when `s ≤ e`). -/
def greedyK (H e s : Nat) : Nat :=
  Nat.findGreatest (fun k => 2 ^ k ∣ s ∧ s + 2 ^ k ≤ e + 1) H

/-- The unique tree node of span `2^k` whose cover starts at `s`
(requires `2^k ∣ s`, `s < 2^H`). -/
def blockNode (H k s : Nat) : Nat := 2 ^ (H - k) + s / 2 ^ k

/-- 2-adic valuation of `s` capped at `H` (the largest `j ≤ H` with
`2^j ∣ s`); measures how aligned a position is. -/
def val2 (H s : Nat) : Nat := Nat.findGreatest (fun j => 2 ^ j ∣ s) H

/-- The greedy (maximal) node at position `s`. -/
def gnode (H e s : Nat) : Nat := blockNode H (greedyK H e s) s

/-- Greedy decomposition of `[s, e]` into maximal aligned blocks,
left to right. -/
def greedyCover (H e s : Nat) : List Nat :=
  if h : s ≤ e then
    if s + 2 ^ greedyK H e s ≤ e then
      gnode H e s :: greedyCover H e (s + 2 ^ greedyK H e s)
    else [gnode H e s]
  else []
termination_by e + 1 - s
decreasing_by
  have h2 : 0 < 2 ^ greedyK H e s := Nat.pos_pow_of_pos _ (by omega)
  omega

/-- Node `n`'s cover lies inside the decode range `[start, e]`
(the `Prop` counterpart of `in_range(cover(n), decode_range)` for tree
nodes). -/
def fits (H start e n : Nat) : Prop :=
  start ≤ nodeLo H n ∧ nodeHi H n ≤ e

/-- Loop invariant, ascending side condition: the current position is either
the very start of the decode range, or the previously emitted node ends just
before it, lies inside the range, and is maximal (its parent's cover spills
out).  This is what stops the climb from overshooting past the current
position. -/
def sideCond (H start e s : Nat) : Prop :=
  s = start ∨ ∃ q, validNode H q ∧ fits H start e q ∧ nodeHi H q + 1 = s ∧
    inRange (nodeCoverPy H (q / 2)) ((start : Int), (e : Int)) = false

/-- Loop invariant for the emitted list: empty at the very start, otherwise
its bounding box is exactly `[start, s - 1]` for the current position
`s > start`. -/
def prefixOk (H start s : Nat) (nodes : List Nat) : Prop :=
  (nodes = [] ∧ s = start) ∨
    (nodes ≠ [] ∧ start < s ∧
      nodesCoverCore H nodes = some ((start : Int), (s : Int) - 1))

/-- The covers of the listed nodes tile `[s, e]` from left to right:
each node starts where the previous ended plus one, and the last ends at
`e`. -/
def tiles (H : Nat) : List Nat → Nat → Nat → Prop
  | [], s, e => s = e + 1
  | n :: rest, s, e =>
      validNode H n ∧ nodeLo H n = s ∧ nodeHi H n ≤ e ∧
        tiles H rest (nodeHi H n + 1) e

/-- A list of tree nodes whose covers together are exactly `[s, e]`:
every member is a tree node, and a timestamp is in `[s, e]` iff some member
covers it.  (This is the "union equals `[start, end]` exactly" side
condition of the minimality claim.) -/
def exactCover (H s e : Nat) (l : List Nat) : Prop :=
  (∀ n ∈ l, validNode H n) ∧
    ∀ t : Nat, (s ≤ t ∧ t ≤ e) ↔ ∃ n ∈ l, nodeLo H n ≤ t ∧ t ≤ nodeHi H n

end CoverSpec

namespace ChannelKeyDerivation

/-- Spec-side: walk a node number down the tree along branch bits (the
evolution of `curr_node` in `get_frame_key_from_cover`: `*2` on bit `0`,
`*2 + 1` otherwise). -/
def walkNode (c : Nat) (bits : List Nat) : Nat :=
  bits.foldl (fun n b => if b = 0 then n * 2 else n * 2 + 1) c

end ChannelKeyDerivation

/-- The sixteen lowercase hex digit characters (the alphabet of
`bytes.hex()`). -/
def hexDigits : List Char := (List.range 16).map Nat.digitChar


/-! ## Node arithmetic -/

namespace CoverSpec

open ChannelKeyDerivation

lemma two_pow_pos (k : Nat) : 0 < 2 ^ k := Nat.pos_pow_of_pos _ (by omega)

lemma nodeDepth_eq {d n : Nat} (h1 : 2 ^ d ≤ n) (h2 : n < 2 ^ (d + 1)) :
    nodeDepth n = d := by
  unfold nodeDepth
  rw [Nat.log2_eq_log_two]
  exact Nat.log_eq_of_pow_le_of_lt_pow h1 h2

lemma blockNode_bounds {H k s : Nat} (hk : k ≤ H) (hs : s < 2 ^ H) :
    2 ^ (H - k) ≤ blockNode H k s ∧ blockNode H k s < 2 ^ (H - k + 1) := by
  have hdiv : s / 2 ^ k < 2 ^ (H - k) := by
    rw [Nat.div_lt_iff_lt_mul (two_pow_pos k), ← Nat.pow_add]
    rwa [Nat.sub_add_cancel hk]
  unfold blockNode
  refine ⟨Nat.le_add_right _ _, ?_⟩
  calc 2 ^ (H - k) + s / 2 ^ k < 2 ^ (H - k) + 2 ^ (H - k) :=
        Nat.add_lt_add_left hdiv _
    _ = 2 ^ (H - k + 1) := by ring

lemma nodeDepth_blockNode {H k s : Nat} (hk : k ≤ H) (hs : s < 2 ^ H) :
    nodeDepth (blockNode H k s) = H - k :=
  nodeDepth_eq (blockNode_bounds hk hs).1 (blockNode_bounds hk hs).2

lemma nodeSpan_blockNode {H k s : Nat} (hk : k ≤ H) (hs : s < 2 ^ H) :
    nodeSpan H (blockNode H k s) = 2 ^ k := by
  unfold nodeSpan
  rw [nodeDepth_blockNode hk hs, Nat.sub_sub_self hk]

lemma nodeLo_blockNode {H k s : Nat} (hk : k ≤ H) (hdvd : 2 ^ k ∣ s)
    (hs : s < 2 ^ H) : nodeLo H (blockNode H k s) = s := by
  unfold nodeLo
  rw [nodeDepth_blockNode hk hs, nodeSpan_blockNode hk hs]
  have : blockNode H k s - 2 ^ (H - k) = s / 2 ^ k := by
    unfold blockNode
    exact Nat.add_sub_cancel_left _ _
  rw [this, Nat.div_mul_cancel hdvd]

lemma nodeHi_blockNode {H k s : Nat} (hk : k ≤ H) (hdvd : 2 ^ k ∣ s)
    (hs : s < 2 ^ H) : nodeHi H (blockNode H k s) = s + 2 ^ k - 1 := by
  unfold nodeHi
  rw [nodeLo_blockNode hk hdvd hs, nodeSpan_blockNode hk hs]

lemma validNode_blockNode {H k s : Nat} (hk : k ≤ H) (hs : s < 2 ^ H) :
    validNode H (blockNode H k s) := by
  obtain ⟨h1, h2⟩ := blockNode_bounds hk hs
  constructor
  · have := two_pow_pos (H - k); omega
  · calc blockNode H k s < 2 ^ (H - k + 1) := h2
      _ ≤ 2 ^ (H + 1) := Nat.pow_le_pow_right (by omega) (by omega)

lemma nodeDepth_le {H n : Nat} (hv : validNode H n) : nodeDepth n ≤ H := by
  obtain ⟨h1, h2⟩ := hv
  have hpow : 2 ^ nodeDepth n ≤ n := by
    unfold nodeDepth
    rw [Nat.log2_eq_log_two]
    exact Nat.pow_log_le_self 2 (by omega)
  by_contra hcon
  have : 2 ^ (H + 1) ≤ 2 ^ nodeDepth n := Nat.pow_le_pow_right (by omega) (by omega)
  omega

lemma nodeDepth_pow_le {n : Nat} (h1 : 1 ≤ n) : 2 ^ nodeDepth n ≤ n := by
  unfold nodeDepth
  rw [Nat.log2_eq_log_two]
  exact Nat.pow_log_le_self 2 (by omega)

lemma lt_nodeDepth_pow (n : Nat) (h1 : 1 ≤ n) : n < 2 ^ (nodeDepth n + 1) := by
  unfold nodeDepth
  rw [Nat.log2_eq_log_two]
  exact Nat.lt_pow_succ_log_self (by omega) n

/-- Every tree node is the block node of its own span and lower cover
bound. -/
lemma eq_blockNode {H n : Nat} (hv : validNode H n) :
    ∃ k s, k ≤ H ∧ 2 ^ k ∣ s ∧ s < 2 ^ H ∧ n = blockNode H k s ∧
      nodeLo H n = s ∧ nodeSpan H n = 2 ^ k ∧
      nodeHi H n = s + 2 ^ k - 1 := by
  have h1 := hv.1
  have hpow : 2 ^ nodeDepth n ≤ n := nodeDepth_pow_le h1
  have hlt : n < 2 ^ (nodeDepth n + 1) := lt_nodeDepth_pow n h1
  have hdH : nodeDepth n ≤ H := nodeDepth_le hv
  refine ⟨H - nodeDepth n, nodeLo H n, Nat.sub_le H _, ?_, ?_, ?_, rfl, rfl, rfl⟩
  · unfold nodeLo nodeSpan
    exact dvd_mul_left _ _
  · have hi : n - 2 ^ nodeDepth n < 2 ^ nodeDepth n := by
      have : 2 ^ (nodeDepth n + 1) = 2 ^ nodeDepth n + 2 ^ nodeDepth n := by ring
      omega
    unfold nodeLo nodeSpan
    calc (n - 2 ^ nodeDepth n) * 2 ^ (H - nodeDepth n)
        < 2 ^ nodeDepth n * 2 ^ (H - nodeDepth n) :=
          (Nat.mul_lt_mul_right (two_pow_pos _)).2 hi
      _ = 2 ^ H := by rw [← Nat.pow_add, Nat.add_sub_cancel' hdH]
  · unfold blockNode nodeLo nodeSpan
    rw [Nat.sub_sub_self hdH, Nat.mul_div_cancel _ (two_pow_pos _)]
    omega

end CoverSpec

/-! ## Bridging the Python cover pairs with node arithmetic -/

namespace CoverSpec

open ChannelKeyDerivation

lemma nodeCoverPy_valid {H n : Nat} (hv : validNode H n) :
    nodeCoverPy H n = ((nodeLo H n : Int), (nodeHi H n : Int)) := by
  unfold nodeCoverPy
  have h1 := hv.1
  rw [if_neg (by omega), if_pos hv.2]

lemma inRange_iff {H n s e : Nat} (hv : validNode H n) :
    inRange (nodeCoverPy H n) ((s : Int), (e : Int)) = true ↔ fits H s e n := by
  rw [nodeCoverPy_valid hv]
  unfold inRange fits
  simp only [ge_iff_le, Bool.and_eq_true, decide_eq_true_eq]
  omega

lemma inRange_zero_eq_false {H s e : Nat} :
    inRange (nodeCoverPy H 0) ((s : Int), (e : Int)) = false := by
  have h1 : (0 : Int) < 2 ^ H := by positivity
  have h2 : (0 : Int) ≤ (s : Int) := Int.ofNat_nonneg s
  unfold nodeCoverPy inRange
  simp only [reduceIte, ge_iff_le, Bool.and_eq_false_iff, decide_eq_false_iff_not]
  left
  omega

lemma nodeLo_le_nodeHi {H n : Nat} : nodeLo H n ≤ nodeHi H n := by
  unfold nodeHi nodeSpan
  have := two_pow_pos (H - nodeDepth n)
  omega

/-! ## Properties of the greedy block exponent -/

lemma greedyK_spec {H e s : Nat} (hse : s ≤ e) :
    2 ^ greedyK H e s ∣ s ∧ s + 2 ^ greedyK H e s ≤ e + 1 := by
  have h0 : 2 ^ 0 ∣ s ∧ s + 2 ^ 0 ≤ e + 1 := ⟨by simpa using one_dvd s, by omega⟩
  exact Nat.findGreatest_spec (P := fun k => 2 ^ k ∣ s ∧ s + 2 ^ k ≤ e + 1)
    (Nat.zero_le H) h0

lemma greedyK_le (H e s : Nat) : greedyK H e s ≤ H :=
  Nat.findGreatest_le H

lemma le_greedyK {H e s k : Nat} (hk : k ≤ H) (hdvd : 2 ^ k ∣ s)
    (hr : s + 2 ^ k ≤ e + 1) : k ≤ greedyK H e s :=
  Nat.le_findGreatest hk ⟨hdvd, hr⟩

lemma gnode_lo {H e s : Nat} (hse : s ≤ e) (he : e < 2 ^ H) :
    nodeLo H (gnode H e s) = s :=
  nodeLo_blockNode (greedyK_le H e s) (greedyK_spec hse).1 (by omega)

lemma gnode_hi {H e s : Nat} (hse : s ≤ e) (he : e < 2 ^ H) :
    nodeHi H (gnode H e s) = s + 2 ^ greedyK H e s - 1 :=
  nodeHi_blockNode (greedyK_le H e s) (greedyK_spec hse).1 (by omega)

lemma gnode_valid {H e s : Nat} (hse : s ≤ e) (he : e < 2 ^ H) :
    validNode H (gnode H e s) :=
  validNode_blockNode (greedyK_le H e s) (by omega)

lemma gnode_fits {H e s start : Nat} (hst : start ≤ s) (hse : s ≤ e)
    (he : e < 2 ^ H) : fits H start e (gnode H e s) := by
  constructor
  · rw [gnode_lo hse he]; exact hst
  · rw [gnode_hi hse he]
    have := (greedyK_spec (H := H) hse).2
    have := two_pow_pos (greedyK H e s)
    omega

/-! ## The greedy cover tiles the range -/

lemma greedyCover_tiles {H e : Nat} (he : e < 2 ^ H) :
    ∀ m s, e + 1 - s ≤ m → s ≤ e → tiles H (greedyCover H e s) s e := by
  intro m
  induction m with
  | zero => intro s h hse; omega
  | succ m ih =>
      intro s hm hse
      have hKpos := two_pow_pos (greedyK H e s)
      have hspec := greedyK_spec (H := H) hse
      rw [greedyCover, dif_pos hse]
      by_cases hcont : s + 2 ^ greedyK H e s ≤ e
      · rw [if_pos hcont]
        refine ⟨gnode_valid hse he, gnode_lo hse he, (gnode_fits le_rfl hse he).2, ?_⟩
        rw [gnode_hi hse he]
        have hstep : s + 2 ^ greedyK H e s - 1 + 1 = s + 2 ^ greedyK H e s := by omega
        rw [hstep]
        exact ih _ (by omega) hcont
      · rw [if_neg hcont]
        have hend : s + 2 ^ greedyK H e s - 1 = e := by omega
        refine ⟨gnode_valid hse he, gnode_lo hse he, (gnode_fits le_rfl hse he).2, ?_⟩
        rw [gnode_hi hse he, hend]
        rfl

/-! ## Consequences of tiling -/

lemma tiles_mem_bounds {H : Nat} :
    ∀ l s e, tiles H l s e → ∀ n ∈ l,
      validNode H n ∧ s ≤ nodeLo H n ∧ nodeHi H n ≤ e := by
  intro l
  induction l with
  | nil => intro s e ht n hn; cases hn
  | cons a rest ih =>
      intro s e ht n hn
      obtain ⟨hv, hlo, hhi, hrest⟩ := ht
      rw [List.mem_cons] at hn
      rcases hn with rfl | hn
      · exact ⟨hv, by omega, hhi⟩
      · obtain ⟨hv2, hlo2, hhi2⟩ := ih _ _ hrest n hn
        have := nodeLo_le_nodeHi (H := H) (n := a)
        exact ⟨hv2, by omega, hhi2⟩

lemma tiles_union {H : Nat} :
    ∀ l s e, tiles H l s e →
      ∀ t, (s ≤ t ∧ t ≤ e) ↔ ∃ n ∈ l, nodeLo H n ≤ t ∧ t ≤ nodeHi H n := by
  intro l
  induction l with
  | nil =>
      intro s e ht t
      simp only [List.not_mem_nil, false_and, exists_false, iff_false]
      unfold tiles at ht
      omega
  | cons a rest ih =>
      intro s e ht t
      obtain ⟨hv, hlo, hhi, hrest⟩ := ht
      have hIH := ih _ _ hrest t
      have hlh := nodeLo_le_nodeHi (H := H) (n := a)
      constructor
      · rintro ⟨h1, h2⟩
        by_cases hcase : t ≤ nodeHi H a
        · exact ⟨a, List.mem_cons_self a rest, by omega, hcase⟩
        · obtain ⟨n, hn, hb⟩ := hIH.1 ⟨by omega, h2⟩
          exact ⟨n, List.mem_cons_of_mem a hn, hb⟩
      · rintro ⟨n, hn, hb1, hb2⟩
        rw [List.mem_cons] at hn
        rcases hn with rfl | hn
        · omega
        · obtain ⟨hv2, hlo2, hhi2⟩ := tiles_mem_bounds _ _ _ hrest n hn
          omega

lemma tiles_chain {H : Nat} :
    ∀ l s e, tiles H l s e →
      List.Chain' (fun a b => nodeLo H b = nodeHi H a + 1) l := by
  intro l
  induction l with
  | nil => intro s e ht; exact List.chain'_nil
  | cons a rest ih =>
      intro s e ht
      obtain ⟨hv, hlo, hhi, hrest⟩ := ht
      rcases rest with _ | ⟨b, rest2⟩
      · simp
      · rw [List.chain'_cons]
        obtain ⟨hv2, hlo2, hhi2, hrest2⟩ := hrest
        exact ⟨by omega, ih (nodeHi H a + 1) e ⟨hv2, hlo2, hhi2, hrest2⟩⟩

lemma tiles_pairwise {H : Nat} :
    ∀ l s e, tiles H l s e →
      l.Pairwise (fun a b => nodeHi H a < nodeLo H b) := by
  intro l
  induction l with
  | nil => intro s e ht; exact List.Pairwise.nil
  | cons a rest ih =>
      intro s e ht
      obtain ⟨hv, hlo, hhi, hrest⟩ := ht
      refine List.Pairwise.cons ?_ (ih _ _ hrest)
      intro b hb
      have := (tiles_mem_bounds _ _ _ hrest b hb).2.1
      omega

lemma nodesCover_fold {H : Nat} :
    ∀ l (s e : Nat) (p : Int × Int), tiles H l s e → p.2 = (s : Int) - 1 →
      p.1 ≤ (s : Int) →
      l.foldl
        (fun c m => (min c.1 (nodeCoverPy H m).1, max c.2 (nodeCoverPy H m).2)) p
        = (p.1, (e : Int)) := by
  intro l
  induction l with
  | nil =>
      intro s e p ht hp2 hp1
      unfold tiles at ht
      simp only [List.foldl_nil]
      obtain ⟨p1, p2⟩ := p
      simp only at hp2 ⊢
      have : p2 = (e : Int) := by rw [hp2]; subst ht; push_cast; ring
      rw [this]
  | cons a rest ih =>
      intro s e p ht hp2 hp1
      obtain ⟨hv, hlo, hhi, hrest⟩ := ht
      have hlh := nodeLo_le_nodeHi (H := H) (n := a)
      have hcast : ((nodeLo H a : Nat) : Int) ≤ ((nodeHi H a : Nat) : Int) := by
        exact_mod_cast hlh
      have hcast2 : (s : Int) = ((nodeLo H a : Nat) : Int) := by rw [hlo]
      simp only [List.foldl_cons]
      rw [nodeCoverPy_valid hv]
      have hmin : min p.1 ((nodeLo H a : Nat) : Int) = p.1 := by
        rw [min_eq_left]; omega
      have hmax : max p.2 ((nodeHi H a : Nat) : Int) = ((nodeHi H a : Nat) : Int) := by
        rw [max_eq_right]; omega
      have hrec := ih (nodeHi H a + 1) e (p.1, ((nodeHi H a : Nat) : Int)) hrest
        (by simp only; push_cast; ring)
        (by simp only; push_cast; omega)
      simp only at hrec
      simp only [hmin, hmax]
      exact hrec

lemma nodesCoverCore_cons {H a : Nat} {rest : List Nat} :
    nodesCoverCore H (a :: rest) =
      some (rest.foldl
        (fun c m => (min c.1 (nodeCoverPy H m).1, max c.2 (nodeCoverPy H m).2))
        (nodeCoverPy H a)) := rfl

lemma tiles_box {H : Nat} {l : List Nat} {s e : Nat} (ht : tiles H l s e)
    (hne : l ≠ []) : nodesCoverCore H l = some ((s : Int), (e : Int)) := by
  rcases l with _ | ⟨a, rest⟩
  · exact absurd rfl hne
  · obtain ⟨hv, hlo, hhi, hrest⟩ := ht
    have hlh := nodeLo_le_nodeHi (H := H) (n := a)
    have hfold := nodesCover_fold rest (nodeHi H a + 1) e
      (((nodeLo H a : Nat) : Int), ((nodeHi H a : Nat) : Int)) hrest
      (by simp only; push_cast; ring)
      (by simp only; push_cast; omega)
    rw [nodesCoverCore_cons, nodeCoverPy_valid hv, hfold]
    simp only [hlo]

end CoverSpec

/-! ## Length bound on the greedy cover -/

namespace CoverSpec

open ChannelKeyDerivation

lemma val2_dvd {H s : Nat} : 2 ^ val2 H s ∣ s := by
  have h0 : (2 : Nat) ^ 0 ∣ s := by simpa using one_dvd s
  exact Nat.findGreatest_spec (P := fun j => 2 ^ j ∣ s) (Nat.zero_le H) h0

lemma le_val2 {H s j : Nat} (hj : j ≤ H) (hdvd : 2 ^ j ∣ s) : j ≤ val2 H s :=
  Nat.le_findGreatest hj hdvd

lemma val2_le (H s : Nat) : val2 H s ≤ H := Nat.findGreatest_le H

lemma val2_lt_of_pos {H s : Nat} (hs : 1 ≤ s) (hlt : s < 2 ^ H) :
    val2 H s < H := by
  rcases Nat.lt_or_ge (val2 H s) H with h | h
  · exact h
  · exfalso
    have hv : val2 H s = H := le_antisymm (val2_le H s) h
    have := val2_dvd (H := H) (s := s)
    rw [hv] at this
    have := Nat.le_of_dvd (by omega) this
    omega

/-- In the fully aligned regime the greedy exponent is the floor log of the
remaining length. -/
lemma greedyK_eq_log {H e s : Nat} (hse : s ≤ e) (he : e < 2 ^ H)
    (halign : ∀ j, 2 ^ j ≤ e + 1 - s → 2 ^ j ∣ s) :
    greedyK H e s = Nat.log 2 (e + 1 - s) := by
  set L := e + 1 - s with hL
  have hL1 : 1 ≤ L := by omega
  have hLH : L ≤ 2 ^ H := by omega
  have hlogH : Nat.log 2 L ≤ H := by
    calc Nat.log 2 L ≤ Nat.log 2 (2 ^ H) := Nat.log_mono_right hLH
      _ = H := Nat.log_pow (by omega) H
  have hpowlog : 2 ^ Nat.log 2 L ≤ L := Nat.pow_log_le_self 2 (by omega)
  apply le_antisymm
  · have hspec := greedyK_spec (H := H) hse
    have hKle : 2 ^ greedyK H e s ≤ L := by omega
    exact (Nat.pow_le_iff_le_log (by omega) (by omega)).1 hKle
  · exact le_greedyK hlogH (halign _ hpowlog) (by omega)

/-- Descending-regime bound: from an aligned position the greedy cover has at
most `log2 L + 1` blocks. -/
lemma greedyCover_len_desc {H e : Nat} (he : e < 2 ^ H) :
    ∀ L s, e + 1 - s = L → s ≤ e → (∀ j, 2 ^ j ≤ e + 1 - s → 2 ^ j ∣ s) →
      (greedyCover H e s).length ≤ Nat.log 2 (e + 1 - s) + 1 := by
  intro L
  induction L using Nat.strong_induction_on with
  | _ L ih =>
      intro s hLs hse halign
      have hK := greedyK_eq_log hse he halign
      have hspec := greedyK_spec (H := H) hse
      have hKpos := two_pow_pos (greedyK H e s)
      rw [greedyCover, dif_pos hse]
      by_cases hcont : s + 2 ^ greedyK H e s ≤ e
      · rw [if_pos hcont]
        simp only [List.length_cons]
        set s2 := s + 2 ^ greedyK H e s with hs2
        have hL2 : e + 1 - s2 < L := by omega
        have hlt2 : e + 1 - s < 2 ^ (Nat.log 2 (e + 1 - s) + 1) :=
          Nat.lt_pow_succ_log_self (by omega) _
        have hrem : e + 1 - s2 < 2 ^ greedyK H e s := by
          have hdouble : (2 : Nat) ^ (Nat.log 2 (e + 1 - s) + 1)
              = 2 ^ Nat.log 2 (e + 1 - s) + 2 ^ Nat.log 2 (e + 1 - s) := by ring
          rw [hK] at hKpos hs2 ⊢
          omega
        have halign2 : ∀ j, 2 ^ j ≤ e + 1 - s2 → 2 ^ j ∣ s2 := by
          intro j hj
          have hjK : j < greedyK H e s := by
            by_contra hcon
            have : 2 ^ greedyK H e s ≤ 2 ^ j := Nat.pow_le_pow_right (by omega) (by omega)
            omega
          have hdvd1 : 2 ^ j ∣ s := halign j (by omega)
          have hdvd2 : (2 : Nat) ^ j ∣ 2 ^ greedyK H e s :=
            pow_dvd_pow 2 (by omega)
          exact Nat.dvd_add hdvd1 hdvd2
        have hrec := ih (e + 1 - s2) hL2 s2 rfl (by omega) halign2
        have hlog2 : Nat.log 2 (e + 1 - s2) < greedyK H e s :=
          Nat.log_lt_of_lt_pow (by omega) hrem
        rw [hK] at hlog2
        omega
      · rw [if_neg hcont]
        simp
  done

/-- Main structural bound: from any nonzero position the greedy cover length
plus the position's capped 2-adic valuation stays below `2H - 1`. -/
lemma greedyCover_len_aux {H e : Nat} (hH : 2 ≤ H) (he : e < 2 ^ H) :
    ∀ L s, e + 1 - s = L → 1 ≤ s → s ≤ e →
      (greedyCover H e s).length + val2 H s ≤ 2 * H - 1 := by
  intro L
  induction L using Nat.strong_induction_on with
  | _ L ih =>
      intro s hLs hs1 hse
      by_cases halign : ∀ j, 2 ^ j ≤ e + 1 - s → 2 ^ j ∣ s
      · have hlen := greedyCover_len_desc he (e + 1 - s) s rfl hse halign
        have hpowlog : 2 ^ Nat.log 2 (e + 1 - s) ≤ e + 1 - s :=
          Nat.pow_log_le_self 2 (by omega)
        have hlogval : Nat.log 2 (e + 1 - s) ≤ val2 H s := by
          refine le_val2 ?_ (halign _ hpowlog)
          have : e + 1 - s ≤ 2 ^ H := by omega
          calc Nat.log 2 (e + 1 - s) ≤ Nat.log 2 (2 ^ H) := Nat.log_mono_right this
            _ = H := Nat.log_pow (by omega) H
        have hvlt : val2 H s < H := val2_lt_of_pos hs1 (by omega)
        omega
      · push_neg at halign
        obtain ⟨j0, hj0le, hj0nd⟩ := halign
        have hj0v : val2 H s < j0 := by
          by_contra hcon
          exact hj0nd (dvd_trans (pow_dvd_pow 2 (by omega))
            (val2_dvd (H := H) (s := s)))
        have hj0H : j0 ≤ H := by
          by_contra hcon
          have : 2 ^ H < 2 ^ j0 := Nat.pow_lt_pow_right (by omega) (by omega)
          omega
        have hvH : val2 H s + 1 ≤ H := by omega
        have hvlt : 2 ^ (val2 H s + 1) ≤ 2 ^ j0 :=
          Nat.pow_le_pow_right (by omega) (by omega)
        have hKv : greedyK H e s = val2 H s := by
          apply le_antisymm
          · have hspec := greedyK_spec (H := H) hse
            exact le_val2 (greedyK_le H e s) hspec.1
          · refine le_greedyK (by omega) val2_dvd ?_
            have h1 : 2 ^ val2 H s < 2 ^ j0 :=
              Nat.pow_lt_pow_right (by omega) (by omega)
            omega
        set v := val2 H s with hv
        have hKpos := two_pow_pos v
        have hcont : s + 2 ^ greedyK H e s ≤ e := by
          rw [hKv]
          have h1 : 2 ^ v < 2 ^ j0 :=
            Nat.pow_lt_pow_right (by omega) (by omega)
          omega
        rw [greedyCover, dif_pos hse, if_pos hcont]
        simp only [List.length_cons]
        set s2 := s + 2 ^ greedyK H e s with hs2
        have hndvd : ¬ 2 ^ (v + 1) ∣ s := by
          intro hcon
          have := le_val2 hvH hcon
          omega
        have hdvd2 : 2 ^ (v + 1) ∣ s2 := by
          obtain ⟨m, hm⟩ := val2_dvd (H := H) (s := s)
          rw [← hv] at hm
          have hmodd : ¬ 2 ∣ m := by
            intro hcon
            obtain ⟨m2, hm2⟩ := hcon
            refine hndvd ⟨m2, ?_⟩
            rw [hm, hm2, pow_succ]
            ring
          obtain ⟨m2, hm2⟩ := (Nat.even_or_odd m).resolve_left
            (fun hc => hmodd hc.two_dvd)
          refine ⟨m2 + 1, ?_⟩
          rw [hs2, hKv, hm, hm2]
          ring
        have hv2 : v + 1 ≤ val2 H s2 := le_val2 hvH hdvd2
        have hL2 : e + 1 - s2 < L := by
          rw [hs2, hKv]; omega
        have hrec := ih (e + 1 - s2) hL2 s2 rfl (by rw [hs2]; omega)
          (by rw [hs2, hKv] at hcont ⊢; omega)
        omega

/-- The greedy cover of any subrange of a height-`H ≥ 2` tree has at most
`2H - 1` blocks. -/
lemma greedyCover_length_le {H e s : Nat} (hH : 2 ≤ H) (he : e < 2 ^ H)
    (hse : s ≤ e) : (greedyCover H e s).length ≤ 2 * H - 1 := by
  rcases Nat.eq_zero_or_pos s with rfl | hs1
  · have halign : ∀ j, 2 ^ j ≤ e + 1 - 0 → 2 ^ j ∣ 0 := fun j _ => dvd_zero _
    have hlen := greedyCover_len_desc he (e + 1 - 0) 0 rfl hse halign
    have hlog : Nat.log 2 (e + 1 - 0) ≤ H := by
      have : e + 1 - 0 ≤ 2 ^ H := by omega
      calc Nat.log 2 (e + 1 - 0) ≤ Nat.log 2 (2 ^ H) := Nat.log_mono_right this
        _ = H := Nat.log_pow (by omega) H
    omega
  · have := greedyCover_len_aux hH he (e + 1 - s) s rfl hs1 hse
    omega

end CoverSpec

/-! ## Minimality of the greedy cover -/

namespace CoverSpec

open ChannelKeyDerivation

/-- Aligned blocks that intersect are nested (arithmetic core). -/
lemma block_nested {ka kb i j : Nat} (hk : ka ≤ kb)
    (h1 : 2 ^ kb * j < 2 ^ ka * (i + 1))
    (h2 : 2 ^ ka * i < 2 ^ kb * (j + 1)) :
    2 ^ kb * j ≤ 2 ^ ka * i ∧ 2 ^ ka * (i + 1) ≤ 2 ^ kb * (j + 1) := by
  have hc : (2 : Nat) ^ kb = 2 ^ ka * 2 ^ (kb - ka) := by
    rw [← Nat.pow_add, Nat.add_sub_cancel' hk]
  simp only [hc, mul_assoc] at h1 h2 ⊢
  have hcj : 2 ^ (kb - ka) * j ≤ i :=
    Nat.lt_succ_iff.1 (Nat.lt_of_mul_lt_mul_left h1)
  have hij : i + 1 ≤ 2 ^ (kb - ka) * (j + 1) :=
    Nat.lt_of_mul_lt_mul_left h2
  exact ⟨Nat.mul_le_mul_left _ hcj, Nat.mul_le_mul_left _ hij⟩

/-- Two tree nodes whose covers intersect are nested: the one with the
smaller span lies inside the other. -/
lemma nodes_nested {H a b : Nat} (hva : validNode H a) (hvb : validNode H b)
    (hspan : nodeSpan H a ≤ nodeSpan H b)
    (hint1 : nodeLo H b ≤ nodeHi H a) (hint2 : nodeLo H a ≤ nodeHi H b) :
    nodeLo H b ≤ nodeLo H a ∧ nodeHi H a ≤ nodeHi H b := by
  obtain ⟨ka, sa, hkaH, hdva, hsa, hna, hloa, hspa, hhia⟩ := eq_blockNode hva
  obtain ⟨kb, sb, hkbH, hdvb, hsb, hnb, hlob, hspb, hhib⟩ := eq_blockNode hvb
  have hk : ka ≤ kb := by
    refine (Nat.pow_le_pow_iff_right (a := 2) (by omega)).1 ?_
    rw [← hspa, ← hspb]
    exact hspan
  obtain ⟨i, hi⟩ := hdva
  obtain ⟨j, hj⟩ := hdvb
  have hka1 := two_pow_pos ka
  have hkb1 := two_pow_pos kb
  simp only [hloa, hlob, hhia, hhib] at hint1 hint2 ⊢
  rw [hi, hj] at hint1 hint2 ⊢
  have hea : 2 ^ ka * (i + 1) = 2 ^ ka * i + 2 ^ ka := by ring
  have heb : 2 ^ kb * (j + 1) = 2 ^ kb * j + 2 ^ kb := by ring
  have hbn := block_nested (i := i) (j := j) hk (by omega) (by omega)
  omega

/-- Greedy maximality, restated for arbitrary nodes: any tree node whose
cover starts at `s` and stays within `[?, e]` has span at most the greedy
block's. -/
lemma span_le_gnode_span {H e s c : Nat} (hse : s ≤ e) (he : e < 2 ^ H)
    (hvc : validNode H c) (hlo : nodeLo H c = s) (hhi : nodeHi H c ≤ e) :
    nodeSpan H c ≤ nodeSpan H (gnode H e s) := by
  obtain ⟨kc, sc, hkcH, hdvc, hsc, hnc, hloc, hspc, hhic⟩ := eq_blockNode hvc
  have hsceq : sc = s := by omega
  rw [hsceq] at hdvc hhic
  have hkc1 := two_pow_pos kc
  have hkle : kc ≤ greedyK H e s := le_greedyK hkcH hdvc (by omega)
  have hgs : nodeSpan H (gnode H e s) = 2 ^ greedyK H e s :=
    nodeSpan_blockNode (greedyK_le H e s) (by omega)
  rw [hspc, hgs]
  exact Nat.pow_le_pow_right (by omega) hkle

/-- Every member of the greedy list is the greedy node of its own start
position. -/
lemma greedyCover_mem_gnode {H e : Nat} :
    ∀ m s, e + 1 - s ≤ m → s ≤ e → ∀ g ∈ greedyCover H e s,
      ∃ s2, s ≤ s2 ∧ s2 ≤ e ∧ g = gnode H e s2 := by
  intro m
  induction m with
  | zero => intro s h hse; omega
  | succ m ih =>
      intro s hm hse g hg
      have hKpos := two_pow_pos (greedyK H e s)
      rw [greedyCover, dif_pos hse] at hg
      by_cases hcont : s + 2 ^ greedyK H e s ≤ e
      · rw [if_pos hcont] at hg
        rw [List.mem_cons] at hg
        rcases hg with rfl | hg
        · exact ⟨s, le_rfl, hse, rfl⟩
        · obtain ⟨s2, h1, h2, h3⟩ := ih (s + 2 ^ greedyK H e s) (by omega)
            hcont g hg
          exact ⟨s2, by omega, h2, h3⟩
      · rw [if_neg hcont] at hg
        rw [List.mem_singleton] at hg
        exact ⟨s, le_rfl, hse, hg ▸ rfl⟩

/-- A timestamp is covered by at most one member of a tiling list. -/
lemma tiles_unique {H : Nat} {l : List Nat} {s e : Nat} (ht : tiles H l s e)
    {g1 g2 t : Nat} (hg1 : g1 ∈ l) (hg2 : g2 ∈ l)
    (hc1 : nodeLo H g1 ≤ t ∧ t ≤ nodeHi H g1)
    (hc2 : nodeLo H g2 ≤ t ∧ t ≤ nodeHi H g2) : g1 = g2 := by
  have hpw := tiles_pairwise _ _ _ ht
  have hpw2 : l.Pairwise
      (fun a b => nodeHi H a < nodeLo H b ∨ nodeHi H b < nodeLo H a) :=
    hpw.imp (fun h => Or.inl h)
  by_contra hne
  have := (hpw2.forall (fun a b h => h.symm.imp id id)) hg1 hg2 hne
  omega

/-- Any tree node inside the decode range is contained in one of the greedy
tiles. -/
lemma subset_tile {H e start c : Nat} (hst : start ≤ e) (he : e < 2 ^ H)
    (hvc : validNode H c) (hfit : fits H start e c) :
    ∃ g ∈ greedyCover H e start,
      nodeLo H g ≤ nodeLo H c ∧ nodeHi H c ≤ nodeHi H g := by
  have htiles : tiles H (greedyCover H e start) start e :=
    greedyCover_tiles he (e + 1 - start) start le_rfl hst
  obtain ⟨hfit1, hfit2⟩ := hfit
  have hlc := nodeLo_le_nodeHi (H := H) (n := c)
  have hin : start ≤ nodeLo H c ∧ nodeLo H c ≤ e := ⟨hfit1, by omega⟩
  obtain ⟨g, hg, hcov⟩ := (tiles_union _ _ _ htiles (nodeLo H c)).1 hin
  have hvg := (tiles_mem_bounds _ _ _ htiles g hg).1
  rcases le_or_lt (nodeSpan H c) (nodeSpan H g) with hsp | hsp
  · obtain ⟨h1, h2⟩ := nodes_nested hvc hvg hsp (by omega) (by omega)
    exact ⟨g, hg, h1, h2⟩
  · exfalso
    obtain ⟨h1, h2⟩ := nodes_nested hvg hvc (by omega) (by omega) (by omega)
    -- g ⊆ c and lo c ∈ g forces lo c = lo g; greedy maximality contradicts
    have hloeq : nodeLo H c = nodeLo H g := by omega
    obtain ⟨s2, hs2a, hs2b, hs2c⟩ := greedyCover_mem_gnode (e + 1 - start)
      start le_rfl hst g hg
    have hglo : nodeLo H g = s2 := by rw [hs2c]; exact gnode_lo hs2b he
    have hmax := span_le_gnode_span hs2b he hvc (by omega) hfit2
    rw [← hs2c] at hmax
    omega

/-- Minimality: any list of tree nodes whose covers are exactly `[start, e]`
has at least as many members as the greedy cover. -/
lemma greedyCover_minimal {H e start : Nat} (hst : start ≤ e) (he : e < 2 ^ H)
    {l : List Nat} (hex : exactCover H start e l) :
    (greedyCover H e start).length ≤ l.length := by
  classical
  have htiles : tiles H (greedyCover H e start) start e :=
    greedyCover_tiles he (e + 1 - start) start le_rfl hst
  set G := greedyCover H e start with hG
  -- each member of l sits inside a unique greedy tile
  have hmem : ∀ c ∈ l, fits H start e c := by
    intro c hc
    have hlc := nodeLo_le_nodeHi (H := H) (n := c)
    have h1 := (hex.2 (nodeLo H c)).2 ⟨c, hc, le_rfl, hlc⟩
    have h2 := (hex.2 (nodeHi H c)).2 ⟨c, hc, hlc, le_rfl⟩
    exact ⟨h1.1, h2.2⟩
  -- the chooser: first member of l covering the tile's start
  set f : Nat → Nat := fun g =>
    (l.find? (fun c => decide (nodeLo H c ≤ nodeLo H g ∧
      nodeLo H g ≤ nodeHi H c))).getD 0 with hf
  have hfspec : ∀ g ∈ G, f g ∈ l ∧ nodeLo H (f g) ≤ nodeLo H g ∧
      nodeLo H g ≤ nodeHi H (f g) := by
    intro g hg
    obtain ⟨hvg, hlos, hhis⟩ := tiles_mem_bounds _ _ _ htiles g hg
    have hlghg := nodeLo_le_nodeHi (H := H) (n := g)
    obtain ⟨c, hcl, hcc⟩ := (hex.2 (nodeLo H g)).1 ⟨hlos, by omega⟩
    have hex2 : ∃ x ∈ l, (fun c => decide (nodeLo H c ≤ nodeLo H g ∧
        nodeLo H g ≤ nodeHi H c)) x = true := by
      exact ⟨c, hcl, by simpa using hcc⟩
    obtain ⟨a, ha⟩ := (List.find?_isSome).2 hex2 |> Option.isSome_iff_exists.1
    have hal := List.mem_of_find?_eq_some ha
    have hap := List.find?_some ha
    simp only [decide_eq_true_eq] at hap
    rw [hf]
    simp only [ha, Option.getD_some]
    exact ⟨hal, hap⟩
  -- the chosen member lies inside its tile
  have hsub : ∀ g ∈ G, nodeLo H g ≤ nodeLo H (f g) ∧
      nodeHi H (f g) ≤ nodeHi H g := by
    intro g hg
    obtain ⟨hfl, hflo, hfhi⟩ := hfspec g hg
    obtain ⟨g0, hg0, hg0a, hg0b⟩ := subset_tile hst he (hex.1 _ hfl) (hmem _ hfl)
    have hlfc := nodeLo_le_nodeHi (H := H) (n := f g)
    have hlg := nodeLo_le_nodeHi (H := H) (n := g)
    have hgg0 : g = g0 := by
      refine tiles_unique htiles hg hg0 (t := nodeLo H g) ⟨le_rfl, hlg⟩
        ⟨by omega, by omega⟩
    subst hgg0
    exact ⟨by omega, hg0b⟩
  -- G is nodup, f is injective on G, so |G| ≤ |l|
  have hnodup : G.Nodup := by
    have hpw := tiles_pairwise _ _ _ htiles
    refine hpw.imp ?_
    intro a b hr
    intro heq
    subst heq
    have := nodeLo_le_nodeHi (H := H) (n := a)
    omega
  have hinj : ∀ g1 ∈ G, ∀ g2 ∈ G, f g1 = f g2 → g1 = g2 := by
    intro g1 hg1 g2 hg2 hfeq
    obtain ⟨hs1a, hs1b⟩ := hsub g1 hg1
    obtain ⟨hs2a, hs2b⟩ := hsub g2 hg2
    obtain ⟨hl1, hlo1, hhi1⟩ := hfspec g1 hg1
    have hlf := nodeLo_le_nodeHi (H := H) (n := f g1)
    rw [hfeq] at hs1a hs1b hlf
    refine tiles_unique htiles hg1 hg2 (t := nodeLo H (f g2)) ⟨hs1a, ?_⟩
      ⟨hs2a, ?_⟩ <;> omega
  calc G.length = G.toFinset.card := (List.toFinset_card_of_nodup hnodup).symm
    _ ≤ l.toFinset.card := by
        refine Finset.card_le_card_of_injOn f ?_ ?_
        · intro g hg
          rw [List.mem_toFinset] at hg ⊢
          exact (hfspec g hg).1
        · intro g1 hg1 g2 hg2 hfeq
          have hg1m : g1 ∈ G := by
            have h9 := hg1
            simp only [Finset.mem_coe, List.mem_toFinset] at h9
            exact h9
          have hg2m : g2 ∈ G := by
            have h9 := hg2
            simp only [Finset.mem_coe, List.mem_toFinset] at h9
            exact h9
          exact hinj g1 hg1m g2 hg2m hfeq
    _ ≤ l.length := List.toFinset_card_le l

end CoverSpec

/-! ## Block-node step relations (successor, left child, parent, parity) -/

namespace CoverSpec

open ChannelKeyDerivation

lemma blockNode_succ {H k s : Nat} (hk : k ≤ H) (hdvd : 2 ^ k ∣ s)
    (hs : s + 2 ^ k < 2 ^ H) :
    blockNode H k s + 1 = blockNode H k (s + 2 ^ k) := by
  unfold blockNode
  rw [Nat.add_div_right s (two_pow_pos k)]
  omega

lemma blockNode_left {H k s : Nat} (hk1 : 1 ≤ k) (hkH : k ≤ H)
    (hdvd : 2 ^ k ∣ s) :
    blockNode H k s * 2 = blockNode H (k - 1) s := by
  obtain ⟨m, hm⟩ := hdvd
  have hdiv1 : s / 2 ^ k = m := by rw [hm]; exact Nat.mul_div_cancel_left m (two_pow_pos k)
  have hdiv2 : s / 2 ^ (k - 1) = 2 * m := by
    rw [hm]
    have : (2 : Nat) ^ k = 2 ^ (k - 1) * 2 := by
      rw [← pow_succ]
      congr 1
      omega
    rw [this, mul_assoc, Nat.mul_div_cancel_left _ (two_pow_pos (k - 1))]
  have hpow : (2 : Nat) ^ (H - (k - 1)) = 2 ^ (H - k) * 2 := by
    rw [← pow_succ]
    congr 1
    omega
  unfold blockNode
  rw [hdiv1, hdiv2, hpow]
  ring

lemma blockNode_parent_even {H k s : Nat} (hk : k < H) (hdvd : 2 ^ (k + 1) ∣ s) :
    blockNode H k s / 2 = blockNode H (k + 1) s := by
  obtain ⟨m, hm⟩ := hdvd
  have hdiv1 : s / 2 ^ k = 2 * m := by
    rw [hm, pow_succ]
    rw [show (2 : Nat) ^ k * 2 * m = 2 ^ k * (2 * m) by ring]
    exact Nat.mul_div_cancel_left _ (two_pow_pos k)
  have hdiv2 : s / 2 ^ (k + 1) = m := by
    rw [hm]; exact Nat.mul_div_cancel_left m (two_pow_pos (k + 1))
  have hpow : (2 : Nat) ^ (H - k) = 2 ^ (H - (k + 1)) * 2 := by
    rw [← pow_succ]
    congr 1
    omega
  unfold blockNode
  rw [hdiv1, hdiv2, hpow]
  omega

lemma blockNode_parent_odd {H k s : Nat} (hk : k < H) (hdvd : 2 ^ k ∣ s)
    (hnd : ¬ 2 ^ (k + 1) ∣ s) :
    2 ^ k ≤ s ∧ 2 ^ (k + 1) ∣ s - 2 ^ k ∧
      blockNode H k s / 2 = blockNode H (k + 1) (s - 2 ^ k) := by
  obtain ⟨m, hm⟩ := hdvd
  have hmodd : ¬ 2 ∣ m := by
    intro hcon
    obtain ⟨m2, hm2⟩ := hcon
    refine hnd ⟨m2, ?_⟩
    rw [hm, hm2, pow_succ]
    ring
  obtain ⟨m2, hm2⟩ := (Nat.even_or_odd m).resolve_left
    (fun hc => hmodd hc.two_dvd)
  have hs1 : 2 ^ k ≤ s := by
    rw [hm, hm2]
    have := two_pow_pos k
    nlinarith [two_pow_pos k]
  have hsub : s - 2 ^ k = 2 ^ (k + 1) * m2 := by
    rw [hm, hm2, pow_succ]
    have h9 : (2 : Nat) ^ k * (2 * m2 + 1) = 2 ^ k * 2 * m2 + 2 ^ k := by ring
    omega
  refine ⟨hs1, ⟨m2, hsub⟩, ?_⟩
  have hdiv1 : s / 2 ^ k = 2 * m2 + 1 := by
    rw [hm, hm2]
    exact Nat.mul_div_cancel_left _ (two_pow_pos k)
  have hdiv2 : (s - 2 ^ k) / 2 ^ (k + 1) = m2 := by
    rw [hsub]
    exact Nat.mul_div_cancel_left m2 (two_pow_pos (k + 1))
  have hpow : (2 : Nat) ^ (H - k) = 2 ^ (H - (k + 1)) * 2 := by
    rw [← pow_succ]
    congr 1
    omega
  unfold blockNode
  rw [hdiv1, hdiv2, hpow]
  omega

end CoverSpec

/-! ## The emitted node's parent never fits (climb stops exactly there) -/

namespace CoverSpec

open ChannelKeyDerivation

lemma inR_eq_false {H n s e : Nat} (hv : validNode H n) (hnf : ¬ fits H s e n) :
    inRange (nodeCoverPy H n) ((s : Int), (e : Int)) = false :=
  Bool.eq_false_iff.2 ((not_congr (inRange_iff hv)).2 hnf)

lemma fits_blockNode_iff {H k s start e : Nat} (hk : k ≤ H) (hdvd : 2 ^ k ∣ s)
    (hs : s < 2 ^ H) :
    fits H start e (blockNode H k s) ↔ (start ≤ s ∧ s + 2 ^ k ≤ e + 1) := by
  unfold fits
  rw [nodeLo_blockNode hk hdvd hs, nodeHi_blockNode hk hdvd hs]
  have := two_pow_pos k
  omega

lemma gnode_eq_one {H e s : Nat} (hse : s ≤ e) (he : e < 2 ^ H)
    (hK : greedyK H e s = H) : s = 0 ∧ gnode H e s = 1 := by
  have hdvd := (greedyK_spec (H := H) hse).1
  rw [hK] at hdvd
  have hs0 : s = 0 := by
    rcases Nat.eq_zero_or_pos s with h | h
    · exact h
    · have := Nat.le_of_dvd h hdvd
      omega
  refine ⟨hs0, ?_⟩
  unfold gnode blockNode
  rw [hK, hs0]
  simp

lemma gnode_parent_not_inR {H e start s : Nat} (hst : start ≤ s) (hse : s ≤ e)
    (he : e < 2 ^ H) (hSC : sideCond H start e s) :
    inRange (nodeCoverPy H (gnode H e s / 2)) ((start : Int), (e : Int)) = false := by
  have hKH : greedyK H e s ≤ H := greedyK_le H e s
  have hspec := greedyK_spec (H := H) hse
  have hKpos := two_pow_pos (greedyK H e s)
  have hsH : s < 2 ^ H := by omega
  rcases Nat.eq_or_lt_of_le hKH with hKeq | hKlt
  · obtain ⟨hs0, hg1⟩ := gnode_eq_one hse he hKeq
    rw [hg1]
    exact inRange_zero_eq_false
  · by_cases hpar : 2 ^ (greedyK H e s + 1) ∣ s
    · -- the greedy node is a left child; its parent fits only if a bigger
      -- aligned block fits at s, contradicting maximality
      have hpe : gnode H e s / 2 = blockNode H (greedyK H e s + 1) s :=
        blockNode_parent_even hKlt hpar
      rw [hpe]
      refine inR_eq_false (validNode_blockNode (by omega) hsH) ?_
      rw [fits_blockNode_iff (by omega) hpar hsH]
      rintro ⟨hf1, hf2⟩
      have hmax := Nat.findGreatest_is_greatest
        (P := fun k => 2 ^ k ∣ s ∧ s + 2 ^ k ≤ e + 1) (n := H)
        (Nat.lt_succ_self (greedyK H e s)) (by omega)
      exact hmax ⟨hpar, hf2⟩
    · -- the greedy node is a right child; its parent reaches below s, which
      -- the side condition rules out
      obtain ⟨hsge, hdvd2, hpeq⟩ :=
        blockNode_parent_odd hKlt hspec.1 hpar
      have hpeq2 : gnode H e s / 2 =
          blockNode H (greedyK H e s + 1) (s - 2 ^ greedyK H e s) := hpeq
      rw [hpeq2]
      have hsubH : s - 2 ^ greedyK H e s < 2 ^ H := by omega
      refine inR_eq_false (validNode_blockNode (by omega) hsubH) ?_
      rw [fits_blockNode_iff (by omega) hdvd2 hsubH]
      rintro ⟨hf1, hf2⟩
      have hps : (2 : Nat) ^ (greedyK H e s + 1) = 2 ^ greedyK H e s * 2 := pow_succ 2 _
      rcases hSC with hs0 | ⟨q, hvq, hfq, hhq, hqpar⟩
      · omega
      · obtain ⟨kq, sq, hkqH, hdvq, hsqH, hnq, hloq, hspq, hhiq⟩ := eq_blockNode hvq
        have hkqpos := two_pow_pos kq
        have hsqs : sq + 2 ^ kq = s := by omega
        obtain ⟨hfq1, hfq2⟩ := hfq
        rcases Nat.lt_trichotomy kq (greedyK H e s) with hlt | heq | hgt
        · -- q is smaller than the greedy block: q's own parent would fit
          exfalso
          have hpow1 : (2 : Nat) ^ (kq + 1) ≤ 2 ^ greedyK H e s :=
            Nat.pow_le_pow_right (by omega) (by omega)
          have hpow2 : (2 : Nat) ^ (kq + 1) = 2 ^ kq * 2 := pow_succ 2 _
          have htrue : inRange (nodeCoverPy H (q / 2)) ((start : Int), (e : Int)) = true := by
            by_cases hq2 : 2 ^ (kq + 1) ∣ sq
            · have hqe : q / 2 = blockNode H (kq + 1) sq := by
                rw [hnq]
                exact blockNode_parent_even (by omega) hq2
              rw [hqe]
              rw [inRange_iff (validNode_blockNode (by omega) hsqH)]
              rw [fits_blockNode_iff (by omega) hq2 hsqH]
              omega
            · obtain ⟨hge2, hdv2, hqe⟩ :=
                blockNode_parent_odd (H := H) (k := kq) (s := sq) (by omega) hdvq hq2
              rw [hnq, hqe]
              have hsq2H : sq - 2 ^ kq < 2 ^ H := by omega
              rw [inRange_iff (validNode_blockNode (by omega) hsq2H)]
              rw [fits_blockNode_iff (by omega) hdv2 hsq2H]
              omega
          rw [hqpar] at htrue
          cases htrue
        · -- q is exactly the sibling: q's parent is the same parent
          exfalso
          subst heq
          have hsqeq : sq = s - 2 ^ greedyK H e s := by omega
          have hq2 : 2 ^ (greedyK H e s + 1) ∣ sq := by
            rw [hsqeq]; exact hdvd2
          have hqe : q / 2 = blockNode H (greedyK H e s + 1) sq := by
            rw [hnq]
            exact blockNode_parent_even (by omega) hq2
          have htrue : inRange (nodeCoverPy H (q / 2)) ((start : Int), (e : Int)) = true := by
            rw [hqe, inRange_iff (validNode_blockNode (by omega) hsqH),
              fits_blockNode_iff (by omega) hq2 hsqH]
            refine ⟨by omega, by omega⟩
          rw [hqpar] at htrue
          cases htrue
        · -- q is bigger than the greedy block: s would be more aligned than
          -- the odd case allows
          exfalso
          have hdvs : 2 ^ kq ∣ s := by
            have : (2 : Nat) ^ kq ∣ sq + 2 ^ kq := Nat.dvd_add hdvq dvd_rfl
            rwa [hsqs] at this
          exact hpar (dvd_trans (Nat.pow_dvd_pow 2 (by omega)) hdvs)

end CoverSpec

/-! ## The inner loops land exactly on the greedy node -/

namespace CoverSpec

open ChannelKeyDerivation

lemma inR_eq_true {H n s e : Nat} (hv : validNode H n) (hf : fits H s e n) :
    inRange (nodeCoverPy H n) ((s : Int), (e : Int)) = true :=
  (inRange_iff hv).2 hf

/-- The ascending inner loop, started anywhere on the aligned chain below
the greedy node, climbs exactly to the greedy node. -/
lemma climb_eq_gnode {H e start s : Nat} (hst : start ≤ s) (hse : s ≤ e)
    (he : e < 2 ^ H) (hSC : sideCond H start e s) :
    ∀ d k, greedyK H e s - k = d → k ≤ greedyK H e s → 2 ^ k ∣ s →
      climb H start e (blockNode H k s) = gnode H e s := by
  have hsH : s < 2 ^ H := by omega
  intro d
  induction d with
  | zero =>
      intro k hd hk hdvd
      have hkK : k = greedyK H e s := by omega
      subst hkK
      have hnot : ¬ inRange (nodeCoverPy H (blockNode H (greedyK H e s) s / 2))
          ((start : Int), (e : Int)) = true := by
        have hfalse : inRange (nodeCoverPy H (gnode H e s / 2))
            ((start : Int), (e : Int)) = false :=
          gnode_parent_not_inR hst hse he hSC
        rw [show blockNode H (greedyK H e s) s = gnode H e s from rfl, hfalse]
        simp
      rw [climb, dif_neg hnot]
      rfl
  | succ d ih =>
      intro k hd hk hdvd
      have hkK : k < greedyK H e s := by omega
      have hKH := greedyK_le H e s
      have hdvd2 : 2 ^ (k + 1) ∣ s :=
        dvd_trans (Nat.pow_dvd_pow 2 (by omega)) (greedyK_spec (H := H) hse).1
      have hpe : blockNode H k s / 2 = blockNode H (k + 1) s :=
        blockNode_parent_even (by omega) hdvd2
      have hfits : fits H start e (blockNode H (k + 1) s) := by
        rw [fits_blockNode_iff (by omega) hdvd2 hsH]
        have hspec2 := (greedyK_spec (H := H) hse).2
        have hple : (2 : Nat) ^ (k + 1) ≤ 2 ^ greedyK H e s :=
          Nat.pow_le_pow_right (by omega) (by omega)
        omega
      rw [climb]
      rw [dif_pos]
      · rw [hpe]
        exact ih (k + 1) (by omega) (by omega) hdvd2
      · rw [hpe]
        exact inR_eq_true (validNode_blockNode (by omega) hsH) hfits

/-- The descending inner loop, started anywhere on the aligned chain above
the greedy node, descends exactly to the greedy node. -/
lemma descendLoop_eq_gnode {H e start s : Nat} (hst : start ≤ s) (hse : s ≤ e)
    (he : e < 2 ^ H) :
    ∀ d k fuel, k - greedyK H e s = d → greedyK H e s ≤ k → k ≤ H →
      2 ^ k ∣ s → d < fuel →
      descendLoop H start e fuel (blockNode H k s) = some (gnode H e s) := by
  have hsH : s < 2 ^ H := by omega
  intro d
  induction d with
  | zero =>
      intro k fuel hd hk1 hk2 hdvd hfuel
      have hkK : k = greedyK H e s := by omega
      subst hkK
      obtain ⟨f2, rfl⟩ : ∃ f2, fuel = f2 + 1 := ⟨fuel - 1, by omega⟩
      have hspec := greedyK_spec (H := H) hse
      have hcond : inRange (nodeCoverPy H (blockNode H (greedyK H e s) s))
          ((start : Int), (e : Int)) = true :=
        inR_eq_true (validNode_blockNode (by omega) hsH)
          ((fits_blockNode_iff (by omega) hspec.1 hsH).2 ⟨hst, hspec.2⟩)
      rw [descendLoop, if_pos hcond]
      rfl
  | succ d ih =>
      intro k fuel hd hk1 hk2 hdvd hfuel
      have hkK : greedyK H e s < k := by omega
      obtain ⟨f2, rfl⟩ : ∃ f2, fuel = f2 + 1 := ⟨fuel - 1, by omega⟩
      rw [descendLoop]
      rw [if_neg]
      · have hleft : blockNode H k s * 2 = blockNode H (k - 1) s :=
          blockNode_left (by omega) hk2 hdvd
        rw [hleft]
        exact ih (k - 1) f2 (by omega) (by omega) (by omega)
          (dvd_trans (Nat.pow_dvd_pow 2 (by omega)) hdvd) (by omega)
      · rw [Bool.not_eq_true]
        refine inR_eq_false (validNode_blockNode (by omega) hsH) ?_
        rw [fits_blockNode_iff (by omega) hdvd hsH]
        rintro ⟨hf1, hf2⟩
        have hmax := Nat.findGreatest_is_greatest
          (P := fun j => 2 ^ j ∣ s ∧ s + 2 ^ j ≤ e + 1) (n := H)
          (show Nat.findGreatest _ H < k from by
            have : greedyK H e s < k := hkK
            exact this) hk2
        exact hmax ⟨hdvd, hf2⟩

end CoverSpec

/-! ## The outer loop emits the greedy cover -/

namespace CoverSpec

open ChannelKeyDerivation

lemma coverLoop_succ_asc {H s e f : Nat} {nodes : List Nat} {iter : Nat} :
    coverLoop H s e (f + 1) nodes false iter =
      if 0 < nodes.length ∧ nodesCoverCore H nodes = some ((s : Int), (e : Int))
      then some nodes
      else if climb H s e iter = 1 then some (nodes ++ [climb H s e iter])
      else if inRange (nodeCoverPy H (climb H s e iter + 1)) ((s : Int), (e : Int))
      then coverLoop H s e f (nodes ++ [climb H s e iter]) false
        (climb H s e iter + 1)
      else coverLoop H s e f (nodes ++ [climb H s e iter]) true
        (climb H s e iter + 1) := rfl

lemma coverLoop_succ_desc {H s e f : Nat} {nodes : List Nat} {iter : Nat} :
    coverLoop H s e (f + 1) nodes true iter =
      if 0 < nodes.length ∧ nodesCoverCore H nodes = some ((s : Int), (e : Int))
      then some nodes
      else if iter * 2 < 2 ^ (H + 1) then
        match descendLoop H s e (H + 1) (iter * 2) with
        | some found => coverLoop H s e f (nodes ++ [found]) true (found + 1)
        | none => none
      else none := rfl

lemma coverLoop_stop {H start e f : Nat} {nodes : List Nat} {mode : Bool}
    {iter : Nat} (hne : nodes ≠ [])
    (hbox : nodesCoverCore H nodes = some ((start : Int), (e : Int))) :
    coverLoop H start e (f + 1) nodes mode iter = some nodes := by
  rw [coverLoop, if_pos ⟨List.length_pos.2 hne, hbox⟩]

lemma prefixOk_append {H start s : Nat} {nodes : List Nat} {g : Nat}
    (hpre : prefixOk H start s nodes) (hst : start ≤ s)
    (hv : validNode H g) (hlo : nodeLo H g = s) :
    nodesCoverCore H (nodes ++ [g]) =
      some ((start : Int), ((nodeHi H g : Nat) : Int)) := by
  have hlh := nodeLo_le_nodeHi (H := H) (n := g)
  rcases hpre with ⟨rfl, rfl⟩ | ⟨hne, hlt, hbox⟩
  · simp only [List.nil_append]
    rw [nodesCoverCore_cons]
    simp only [List.foldl_nil]
    rw [nodeCoverPy_valid hv, hlo]
  · rcases nodes with _ | ⟨n0, rest⟩
    · exact absurd rfl hne
    · rw [nodesCoverCore_cons] at hbox
      have hfold := Option.some.inj hbox
      simp only [List.cons_append]
      rw [nodesCoverCore_cons, List.foldl_append, hfold]
      simp only [List.foldl_cons, List.foldl_nil]
      rw [nodeCoverPy_valid hv, hlo]
      have hmin : min ((start : Int)) ((s : Nat) : Int) = (start : Int) := by
        rw [min_eq_left]
        exact_mod_cast hst
      have hmax : max ((s : Int) - 1) ((nodeHi H g : Nat) : Int)
          = ((nodeHi H g : Nat) : Int) := by
        rw [max_eq_right]
        have h9 : ((s : Nat) : Int) ≤ ((nodeHi H g : Nat) : Int) := by
          exact_mod_cast (hlo ▸ hlh)
        omega
      rw [hmin, hmax]

/-- One-step characterization of the greedy list. -/
lemma greedyCover_unfold {H e s : Nat} (hse : s ≤ e) :
    greedyCover H e s =
      if s + 2 ^ greedyK H e s ≤ e then
        gnode H e s :: greedyCover H e (s + 2 ^ greedyK H e s)
      else [gnode H e s] := by
  rw [greedyCover, dif_pos hse]

/-- Main simulation: from any reachable loop state the loop returns the
emitted prefix followed by the greedy decomposition of the remaining range. -/
lemma coverLoop_sim {H start e : Nat} (hste : start ≤ e) (he : e < 2 ^ H) :
    ∀ fuel s k nodes (mode : Bool),
      start ≤ s → s ≤ e → e + 2 - s ≤ fuel → k ≤ H → 2 ^ k ∣ s →
      sideCond H start e s →
      prefixOk H start s nodes →
      (mode = false → s + 2 ^ k ≤ e + 1) →
      (mode = true → e + 2 ≤ s + 2 ^ k) →
      coverLoop H start e fuel nodes mode (blockNode H k s) =
        some (nodes ++ greedyCover H e s) := by
  intro fuel
  induction fuel with
  | zero =>
      intro s k nodes mode h1 h2 h3
      omega
  | succ f ih =>
      intro s k nodes mode hst hse hfuel hkH hdvd hSC hpre hasc hdesc
      have hsH : s < 2 ^ H := by omega
      have hKH := greedyK_le H e s
      have hspec := greedyK_spec (H := H) hse
      have hKpos := two_pow_pos (greedyK H e s)
      have hkpos := two_pow_pos k
      have hguard : ¬ (0 < nodes.length ∧
          nodesCoverCore H nodes = some ((start : Int), (e : Int))) := by
        rcases hpre with ⟨rfl, _⟩ | ⟨hne, hlt, hbox⟩
        · rintro ⟨hlen, _⟩
          simp at hlen
        · rintro ⟨hlen, hbox2⟩
          rw [hbox] at hbox2
          have h8 := Option.some.inj hbox2
          have h9 : ((s : Int) - 1) = (e : Int) := congrArg Prod.snd h8
          omega
      -- facts about the emitted greedy node
      have hgv : validNode H (gnode H e s) := gnode_valid hse he
      have hglo : nodeLo H (gnode H e s) = s := gnode_lo hse he
      have hghi : nodeHi H (gnode H e s) = s + 2 ^ greedyK H e s - 1 :=
        gnode_hi hse he
      have hbox2 : nodesCoverCore H (nodes ++ [gnode H e s]) =
          some ((start : Int), ((nodeHi H (gnode H e s) : Nat) : Int)) :=
        prefixOk_append hpre hst hgv hglo
      cases mode with
      | false =>
          have hck : k ≤ greedyK H e s := le_greedyK hkH hdvd (hasc rfl)
          have hclimb : climb H start e (blockNode H k s) = gnode H e s :=
            climb_eq_gnode hst hse he hSC _ k rfl hck hdvd
          rw [coverLoop_succ_asc, if_neg hguard, hclimb]
          by_cases hroot : gnode H e s = 1
          · rw [if_pos hroot]
            -- the root is emitted only from the very start of a full range
            obtain ⟨hs0, -⟩ : s = 0 ∧ gnode H e s = 1 := by
              rcases Nat.eq_or_lt_of_le hKH with hKeq | hKlt
              · exact gnode_eq_one hse he hKeq
              · exfalso
                have h1 : 2 ^ (H - greedyK H e s) ≤ gnode H e s :=
                  (blockNode_bounds (by omega) hsH).1
                have h2 : (2 : Nat) ^ 1 ≤ 2 ^ (H - greedyK H e s) :=
                  Nat.pow_le_pow_right (by omega) (by omega)
                rw [hroot] at h1
                omega
            have hnodes : nodes = [] := by
              rcases hpre with ⟨h9, -⟩ | ⟨-, hlt, -⟩
              · exact h9
              · omega
            have hKeq : greedyK H e s = H := by
              by_contra hcon
              have h1 : 2 ^ (H - greedyK H e s) ≤ gnode H e s :=
                (blockNode_bounds (by omega) hsH).1
              have h2 : (2 : Nat) ^ 1 ≤ 2 ^ (H - greedyK H e s) :=
                Nat.pow_le_pow_right (by omega) (by omega)
              rw [hroot] at h1
              omega
            have hend : ¬ s + 2 ^ greedyK H e s ≤ e := by
              rw [hKeq, hs0]
              omega
            rw [hnodes, greedyCover_unfold hse, if_neg hend, hroot]
          · rw [if_neg hroot]
            -- hi of the emitted node: equal to e (exit) or < e (continue)
            by_cases hcont : s + 2 ^ greedyK H e s ≤ e
            · -- continue with the right neighbour
              have hsltH : s + 2 ^ greedyK H e s < 2 ^ H := by omega
              have hsucc : gnode H e s + 1 =
                  blockNode H (greedyK H e s) (s + 2 ^ greedyK H e s) :=
                blockNode_succ hKH hspec.1 hsltH
              have hdvd2 : 2 ^ greedyK H e s ∣ s + 2 ^ greedyK H e s :=
                Nat.dvd_add hspec.1 dvd_rfl
              have hSC2 : sideCond H start e (s + 2 ^ greedyK H e s) := by
                right
                refine ⟨gnode H e s, hgv, gnode_fits hst hse he,
                  by rw [hghi]; omega, ?_⟩
                exact gnode_parent_not_inR hst hse he hSC
              have hpre2 : prefixOk H start (s + 2 ^ greedyK H e s)
                  (nodes ++ [gnode H e s]) := by
                right
                refine ⟨by simp, by omega, ?_⟩
                rw [hbox2, hghi]
                have h9 : (1 : Nat) ≤ s + 2 ^ greedyK H e s := by
                  have := two_pow_pos (greedyK H e s)
                  omega
                congr 2
                rw [Nat.cast_sub h9]
                simp
              have hgreedy : greedyCover H e s =
                  gnode H e s :: greedyCover H e (s + 2 ^ greedyK H e s) := by
                rw [greedyCover_unfold hse, if_pos hcont]
              by_cases hnext : inRange
                  (nodeCoverPy H (gnode H e s + 1)) ((start : Int), (e : Int)) = true
              · rw [if_pos hnext, hsucc]
                have hvsucc : validNode H (blockNode H (greedyK H e s)
                    (s + 2 ^ greedyK H e s)) :=
                  validNode_blockNode (by omega) (by omega)
                have hfits : fits H start e
                    (blockNode H (greedyK H e s) (s + 2 ^ greedyK H e s)) := by
                  refine (inRange_iff hvsucc).1 ?_
                  rw [← hsucc]
                  exact hnext
                have hasc2 : s + 2 ^ greedyK H e s + 2 ^ greedyK H e s ≤ e + 1 := by
                  have := (fits_blockNode_iff (H := H) (k := greedyK H e s)
                    (s := s + 2 ^ greedyK H e s) (by omega) hdvd2 (by omega)).1 hfits
                  omega
                rw [ih (s + 2 ^ greedyK H e s) (greedyK H e s)
                  (nodes ++ [gnode H e s]) false (by omega) (by omega) (by omega)
                  (by omega) hdvd2 hSC2 hpre2 (fun _ => hasc2) (by simp)]
                rw [hgreedy]
                simp
              · rw [if_neg hnext, hsucc]
                have hvsucc : validNode H (blockNode H (greedyK H e s)
                    (s + 2 ^ greedyK H e s)) :=
                  validNode_blockNode (by omega) (by omega)
                have hnfits : ¬ fits H start e
                    (blockNode H (greedyK H e s) (s + 2 ^ greedyK H e s)) := by
                  intro hcon
                  have h8 := inR_eq_true hvsucc hcon
                  rw [← hsucc] at h8
                  exact hnext h8
                have hdesc2 : e + 2 ≤ s + 2 ^ greedyK H e s + 2 ^ greedyK H e s := by
                  have h9 : fits H start e (blockNode H (greedyK H e s)
                      (s + 2 ^ greedyK H e s)) ↔
                      (start ≤ s + 2 ^ greedyK H e s ∧
                        s + 2 ^ greedyK H e s + 2 ^ greedyK H e s ≤ e + 1) :=
                    fits_blockNode_iff (by omega) hdvd2 (by omega)
                  by_contra hcon
                  exact hnfits (h9.2 ⟨by omega, by omega⟩)
                rw [ih (s + 2 ^ greedyK H e s) (greedyK H e s)
                  (nodes ++ [gnode H e s]) true (by omega) (by omega) (by omega)
                  (by omega) hdvd2 hSC2 hpre2 (by simp) (fun _ => hdesc2)]
                rw [hgreedy]
                simp
            · -- the emitted node reaches e: the next iteration exits the loop
              have hhie : nodeHi H (gnode H e s) = e := by omega
              have hf1 : ∃ f2, f = f2 + 1 := ⟨f - 1, by omega⟩
              obtain ⟨f2, rfl⟩ := hf1
              have hstop : ∀ mode2 iter2, coverLoop H start e (f2 + 1)
                  (nodes ++ [gnode H e s]) mode2 iter2 =
                  some (nodes ++ [gnode H e s]) := by
                intro mode2 iter2
                refine coverLoop_stop (by simp) ?_
                rw [hbox2, hhie]
              have hgreedy : greedyCover H e s = [gnode H e s] := by
                rw [greedyCover_unfold hse, if_neg hcont]
              rw [hgreedy]
              by_cases hnext : inRange
                  (nodeCoverPy H (gnode H e s + 1)) ((start : Int), (e : Int)) = true
              · rw [if_pos hnext, hstop]
              · rw [if_neg hnext, hstop]
      | true =>
          have hdesc2 := hdesc rfl
          have hkK : greedyK H e s < k := by
            by_contra hcon
            have h9 : (2 : Nat) ^ k ≤ 2 ^ greedyK H e s :=
              Nat.pow_le_pow_right (by omega) (by omega)
            omega
          have hk1 : 1 ≤ k := by
            rcases Nat.eq_zero_or_pos k with rfl | h9
            · simp at hdesc2
              omega
            · exact h9
          have hassert : blockNode H k s * 2 < 2 ^ (H + 1) := by
            have h1 : blockNode H k s < 2 ^ (H - k + 1) :=
              (blockNode_bounds hkH hsH).2
            have h2 : (2 : Nat) ^ (H - k + 1) ≤ 2 ^ H :=
              Nat.pow_le_pow_right (by omega) (by omega)
            have h3 : (2 : Nat) ^ (H + 1) = 2 ^ H * 2 := pow_succ 2 H
            omega
          have hleft : blockNode H k s * 2 = blockNode H (k - 1) s :=
            blockNode_left hk1 hkH hdvd
          have hdl : descendLoop H start e (H + 1) (blockNode H k s * 2) =
              some (gnode H e s) := by
            rw [hleft]
            exact descendLoop_eq_gnode hst hse he (k - 1 - greedyK H e s)
              (k - 1) (H + 1) rfl (by omega) (by omega)
              (dvd_trans (Nat.pow_dvd_pow 2 (by omega)) hdvd) (by omega)
          rw [coverLoop_succ_desc, if_neg hguard, if_pos hassert, hdl]
          show coverLoop H start e f (nodes ++ [gnode H e s]) true
            (gnode H e s + 1) = some (nodes ++ greedyCover H e s)
          by_cases hcont : s + 2 ^ greedyK H e s ≤ e
          · have hsltH : s + 2 ^ greedyK H e s < 2 ^ H := by omega
            have hsucc : gnode H e s + 1 =
                blockNode H (greedyK H e s) (s + 2 ^ greedyK H e s) :=
              blockNode_succ hKH hspec.1 hsltH
            have hdvd2 : 2 ^ greedyK H e s ∣ s + 2 ^ greedyK H e s :=
              Nat.dvd_add hspec.1 dvd_rfl
            have hSC2 : sideCond H start e (s + 2 ^ greedyK H e s) := by
              right
              refine ⟨gnode H e s, hgv, gnode_fits hst hse he, by omega, ?_⟩
              exact gnode_parent_not_inR hst hse he hSC
            have hpre2 : prefixOk H start (s + 2 ^ greedyK H e s)
                (nodes ++ [gnode H e s]) := by
              right
              refine ⟨by simp, by omega, ?_⟩
              rw [hbox2, hghi]
              have h9 : (1 : Nat) ≤ s + 2 ^ greedyK H e s := by
                have := two_pow_pos (greedyK H e s)
                omega
              congr 2
              rw [Nat.cast_sub h9]
              simp
            have hdesc3 : e + 2 ≤ s + 2 ^ greedyK H e s + 2 ^ greedyK H e s := by
              -- the next block of the same greedy span no longer fits:
              -- otherwise a block of the doubled span would fit at s
              have hdvdK1 : 2 ^ (greedyK H e s + 1) ∣ s :=
                dvd_trans (Nat.pow_dvd_pow 2 (by omega)) hdvd
              have hps : (2 : Nat) ^ (greedyK H e s + 1) = 2 ^ greedyK H e s * 2 :=
                pow_succ 2 _
              by_contra hcon
              have hmax := Nat.findGreatest_is_greatest
                (P := fun j => 2 ^ j ∣ s ∧ s + 2 ^ j ≤ e + 1) (n := H)
                (Nat.lt_succ_self (greedyK H e s)) (by omega)
              exact hmax ⟨hdvdK1, by omega⟩
            rw [hsucc]
            rw [ih (s + 2 ^ greedyK H e s) (greedyK H e s)
              (nodes ++ [gnode H e s]) true (by omega) (by omega) (by omega)
              (by omega) hdvd2 hSC2 hpre2 (by simp) (fun _ => hdesc3)]
            rw [greedyCover_unfold hse, if_pos hcont]
            simp
          · have hhie : nodeHi H (gnode H e s) = e := by omega
            obtain ⟨f2, rfl⟩ : ∃ f2, f = f2 + 1 := ⟨f - 1, by omega⟩
            have hstop : coverLoop H start e (f2 + 1)
                (nodes ++ [gnode H e s]) true (gnode H e s + 1) =
                some (nodes ++ [gnode H e s]) := by
              refine coverLoop_stop (by simp) ?_
              rw [hbox2, hhie]
            rw [hstop, greedyCover_unfold hse, if_neg hcont]

end CoverSpec

/-! ## Top-level equivalence: the loop computes the greedy cover -/

namespace CoverSpec

open ChannelKeyDerivation

lemma leaf_blockNode {H s : Nat} : s + 2 ^ H = blockNode H 0 s := by
  unfold blockNode
  simp [Nat.add_comm]

lemma coverLoop_full {H start e : Nat} (hste : start ≤ e) (he : e < 2 ^ H) :
    ∀ fuel, e + 2 - start ≤ fuel →
      coverLoop H start e fuel [] false (start + 2 ^ H) =
        some (greedyCover H e start) := by
  intro fuel hfuel
  rw [leaf_blockNode]
  have h9 := coverLoop_sim hste he fuel start 0 [] false le_rfl hste hfuel
    (Nat.zero_le H) (by simpa using one_dvd start) (Or.inl rfl)
    (Or.inl ⟨rfl, rfl⟩) (fun _ => by omega) (by simp)
  simpa using h9

lemma get_covering_nodes_eq {root : Bytes} {start e : Nat} (hse : start ≤ e)
    (he : e ≤ 2 ^ 64 - 1) :
    ChannelKeyDerivation.get_covering_nodes ⟨root, 64⟩ start e =
      some (greedyCover 64 e start) := by
  show (if start ≤ 2 ^ 64 - 1 ∧ e ≤ 2 ^ 64 - 1 ∧ start ≤ e then
      coverLoop 64 start e (e + 2 - start) [] false (start + 2 ^ 64)
    else none) = some (greedyCover 64 e start)
  rw [if_pos ⟨by omega, he, hse⟩]
  exact coverLoop_full hse (by omega) _ le_rfl

end CoverSpec

/-! ## Key-derivation recurrence lemmas -/

namespace ChannelKeyDerivation

lemma traversalBits_one : traversalBits 1 = [] := by
  rw [traversalBits]
  rfl

lemma traversalBits_two_mul {n : Nat} (hn : 1 ≤ n) :
    traversalBits (2 * n) = 0 :: traversalBits n := by
  rw [traversalBits, if_neg (by omega)]
  congr 1
  · omega
  · congr 1
    omega

lemma traversalBits_two_mul_add_one {n : Nat} (hn : 1 ≤ n) :
    traversalBits (2 * n + 1) = 1 :: traversalBits n := by
  rw [traversalBits, if_neg (by omega)]
  congr 1
  · omega
  · congr 1
    omega

lemma applyBits_append (md5 : Bytes → Bytes) (key : Bytes) (a b : List Nat) :
    applyBits md5 key (a ++ b) = applyBits md5 (applyBits md5 key a) b :=
  List.foldl_append _ _ a b

end ChannelKeyDerivation

/-! # Claim theorems -/

open ChannelKeyDerivation CoverSpec

/-- C1: for every `0 ≤ start ≤ end < 2^64`, the node list returned by
`get_covering_nodes(start, end)` has pairwise disjoint, contiguous leaf
ranges whose union is exactly `[start, end]`, and
`get_channel_nodes_cover` of it is `(start, end)`. -/
theorem claim_C1_cover_partition (root : Bytes) (start e : Nat)
    (h1 : start ≤ e) (h2 : e < 2 ^ 64) :
    ∃ l, (ChannelKeyDerivation.mk root 64).get_covering_nodes start e = some l ∧
      (∀ t, (start ≤ t ∧ t ≤ e) ↔
        ∃ n ∈ l, nodeLo 64 n ≤ t ∧ t ≤ nodeHi 64 n) ∧
      l.Pairwise (fun a b => nodeHi 64 a < nodeLo 64 b) ∧
      List.Chain' (fun a b => nodeLo 64 b = nodeHi 64 a + 1) l ∧
      (ChannelKeyDerivation.mk root 64).get_channel_nodes_cover l =
        some ((start : Int), (e : Int)) := by
  have he : e ≤ 2 ^ 64 - 1 := by omega
  have htiles : tiles 64 (greedyCover 64 e start) start e :=
    greedyCover_tiles (by omega) (e + 1 - start) start le_rfl h1
  refine ⟨greedyCover 64 e start, get_covering_nodes_eq h1 he, ?_, ?_, ?_, ?_⟩
  · exact tiles_union _ _ _ htiles
  · exact tiles_pairwise _ _ _ htiles
  · exact tiles_chain _ _ _ htiles
  · have hne : greedyCover 64 e start ≠ [] := by
      rw [greedyCover_unfold h1]
      by_cases hc : start + 2 ^ greedyK 64 e start ≤ e
      · rw [if_pos hc]; simp
      · rw [if_neg hc]; simp
    exact tiles_box htiles hne

/-- C1 witness: the partition property holds at the concrete range
`[0, 2]`. -/
theorem claim_C1_cover_partition_witness :
    (0 ≤ 2 ∧ (2 : Nat) < 2 ^ 64) ∧
      (∃ l, (ChannelKeyDerivation.mk [] 64).get_covering_nodes 0 2 = some l ∧
        (∀ t, (0 ≤ t ∧ t ≤ 2) ↔
          ∃ n ∈ l, nodeLo 64 n ≤ t ∧ t ≤ nodeHi 64 n) ∧
        l.Pairwise (fun a b => nodeHi 64 a < nodeLo 64 b) ∧
        List.Chain' (fun a b => nodeLo 64 b = nodeHi 64 a + 1) l ∧
        (ChannelKeyDerivation.mk [] 64).get_channel_nodes_cover l =
          some ((0 : Int), (2 : Int))) :=
  ⟨⟨by decide, by decide⟩, claim_C1_cover_partition [] 0 2 (by decide) (by decide)⟩

/-- C3: the cover returned by `get_covering_nodes` has at most
`2·64 − 1 = 127` members and is a minimum exact cover: any list of tree
nodes whose leaf covers union to exactly `[start, end]` is at least as
long. -/
theorem claim_C3_cover_minimal (root : Bytes) (start e : Nat)
    (h1 : start ≤ e) (h2 : e ≤ 2 ^ 64 - 1) :
    ∃ l, (ChannelKeyDerivation.mk root 64).get_covering_nodes start e = some l ∧
      l.length ≤ 127 ∧
      ∀ l2, exactCover 64 start e l2 → l.length ≤ l2.length := by
  refine ⟨greedyCover 64 e start, get_covering_nodes_eq h1 h2, ?_, ?_⟩
  · have := greedyCover_length_le (H := 64) (e := e) (s := start)
      (by omega) (by omega) h1
    omega
  · intro l2 hex
    exact greedyCover_minimal h1 (by omega) hex

/-- C3 witness: the bound and minimality hold at the concrete range
`[0, 2]`. -/
theorem claim_C3_cover_minimal_witness :
    (0 ≤ 2 ∧ (2 : Nat) ≤ 2 ^ 64 - 1) ∧
      (∃ l, (ChannelKeyDerivation.mk [] 64).get_covering_nodes 0 2 = some l ∧
        l.length ≤ 127 ∧
        ∀ l2, exactCover 64 0 2 l2 → l.length ≤ l2.length) :=
  ⟨⟨by decide, by decide⟩, claim_C3_cover_minimal [] 0 2 (by decide) (by decide)⟩

/-- C4: the outer `while` loop of `get_covering_nodes` terminates: there is
a finite iteration count `N` such that with any fuel `≥ N` the loop reaches
its stop condition and returns, and `get_covering_nodes` itself returns that
list. -/
theorem claim_C4_loop_terminates (root : Bytes) (start e : Nat)
    (h1 : start ≤ e) (h2 : e ≤ 2 ^ 64 - 1) :
    ∃ N l, (∀ fuel, N ≤ fuel →
        coverLoop 64 start e fuel [] false (start + 2 ^ 64) = some l) ∧
      (ChannelKeyDerivation.mk root 64).get_covering_nodes start e = some l := by
  refine ⟨e + 2 - start, greedyCover 64 e start, ?_, get_covering_nodes_eq h1 h2⟩
  intro fuel hfuel
  exact coverLoop_full h1 (by omega) fuel hfuel

/-- C4 witness: the loop terminates on the concrete range `[0, 2]`. -/
theorem claim_C4_loop_terminates_witness :
    (0 ≤ 2 ∧ (2 : Nat) ≤ 2 ^ 64 - 1) ∧
      (∃ N l, (∀ fuel, N ≤ fuel →
          coverLoop 64 0 2 fuel [] false (0 + 2 ^ 64) = some l) ∧
        (ChannelKeyDerivation.mk [] 64).get_covering_nodes 0 2 = some l) :=
  ⟨⟨by decide, by decide⟩, claim_C4_loop_terminates [] 0 2 (by decide) (by decide)⟩

/-- C5: `get_key_for_node` satisfies the GGM recurrence: node 1 yields the
channel root, node `2n` the MD5 of the parent key with suffix `0x4C`
(`"L"`), node `2n+1` with suffix `0x52` (`"R"`); and `get_frame_key t` is
the key of node `2^64 + t`. -/
theorem claim_C5_ggm_recurrence (md5 : Bytes → Bytes) (root : Bytes)
    (n : Nat) (hn : 1 ≤ n) :
    ((ChannelKeyDerivation.mk root 64).get_key_for_node md5 1).key = root ∧
    ((ChannelKeyDerivation.mk root 64).get_key_for_node md5 (2 * n)).key =
      md5 (((ChannelKeyDerivation.mk root 64).get_key_for_node md5 n).key ++ [76]) ∧
    ((ChannelKeyDerivation.mk root 64).get_key_for_node md5 (2 * n + 1)).key =
      md5 (((ChannelKeyDerivation.mk root 64).get_key_for_node md5 n).key ++ [82]) ∧
    ∀ t : Nat, (ChannelKeyDerivation.mk root 64).get_frame_key md5 t =
      ((ChannelKeyDerivation.mk root 64).get_key_for_node md5 (2 ^ 64 + t)).key := by
  refine ⟨?_, ?_, ?_, ?_⟩
  · unfold ChannelKeyDerivation.get_key_for_node
    rw [traversalBits_one]
    rfl
  · unfold ChannelKeyDerivation.get_key_for_node
    rw [traversalBits_two_mul hn]
    rw [List.reverse_cons, applyBits_append]
    rfl
  · unfold ChannelKeyDerivation.get_key_for_node
    rw [traversalBits_two_mul_add_one hn]
    rw [List.reverse_cons, applyBits_append]
    rfl
  · intro t
    unfold ChannelKeyDerivation.get_frame_key
    rw [Nat.add_comm]

/-- C5 witness: the recurrence at node `n = 1` with a concrete compression
function and root. -/
theorem claim_C5_ggm_recurrence_witness :
    1 ≤ 1 ∧
      (((ChannelKeyDerivation.mk [7] 64).get_key_for_node (fun b => 3 :: b) 1).key = [7] ∧
      ((ChannelKeyDerivation.mk [7] 64).get_key_for_node (fun b => 3 :: b) (2 * 1)).key =
        (fun b => 3 :: b)
          (((ChannelKeyDerivation.mk [7] 64).get_key_for_node (fun b => 3 :: b) 1).key ++ [76]) ∧
      ((ChannelKeyDerivation.mk [7] 64).get_key_for_node (fun b => 3 :: b) (2 * 1 + 1)).key =
        (fun b => 3 :: b)
          (((ChannelKeyDerivation.mk [7] 64).get_key_for_node (fun b => 3 :: b) 1).key ++ [82]) ∧
      ∀ t : Nat, (ChannelKeyDerivation.mk [7] 64).get_frame_key (fun b => 3 :: b) t =
        ((ChannelKeyDerivation.mk [7] 64).get_key_for_node (fun b => 3 :: b) (2 ^ 64 + t)).key) :=
  ⟨le_rfl, claim_C5_ggm_recurrence (fun b => 3 :: b) [7] 1 le_rfl⟩

/-- C7 (code bug evidence): as executed, `get_key_for_node` is not free of
effects: its debug `print(self.root.decode())` raises `UnicodeDecodeError`
for any root that is not valid UTF-8 — here the 16-byte root `0x80…80`,
already at node 1 and for every compression function. -/
theorem claim_C7_debug_print_raises (md5 : Bytes → Bytes) :
    (ChannelKeyDerivation.mk (List.replicate 16 128) 64).get_key_for_node_run
      md5 1 = Except.error "UnicodeDecodeError" := by
  unfold ChannelKeyDerivation.get_key_for_node_run
  rw [if_neg (by decide)]

/-- C8: the cover computation never reads the channel root: two engines
with the same height and arbitrary different roots return identical node
lists for every range. -/
theorem claim_C8_cover_root_independent (r1 r2 : Bytes) (H start e : Nat) :
    (ChannelKeyDerivation.mk r1 H).get_covering_nodes start e =
      (ChannelKeyDerivation.mk r2 H).get_covering_nodes start e := rfl

/-- C10: `gen_secrets` mutates its argument: the caller's `channels` list
ends up with `0` appended in place, one element longer than before the
call. -/
theorem claim_C10_gen_secrets_mutates (rand : Nat → Nat → Bytes)
    (hostPriv hostPub : String) (channels : List Nat) :
    (gen_secrets rand hostPriv hostPub channels).2 = channels ++ [0] ∧
    (gen_secrets rand hostPriv hostPub channels).2.length =
      channels.length + 1 := by
  refine ⟨rfl, ?_⟩
  show (channels ++ [0]).length = channels.length + 1
  simp

/-! ## Traversal and path lemmas (for `get_frame_key_from_cover`) -/

namespace ChannelKeyDerivation

lemma walkNode_append (c : Nat) (a b : List Nat) :
    walkNode c (a ++ b) = walkNode (walkNode c a) b :=
  List.foldl_append _ _ a b

lemma walkNode_one (c b : Nat) :
    walkNode c [b] = if b = 0 then c * 2 else c * 2 + 1 := rfl

lemma walkNode_traversal_aux :
    ∀ f n, 1 ≤ n → n ≤ f → walkNode 1 (traversalBits n).reverse = n := by
  intro f
  induction f with
  | zero => intro n h1 h2; omega
  | succ f ih =>
      intro n h1 h2
      by_cases hn : n ≤ 1
      · have hone : n = 1 := by omega
        subst hone
        rw [traversalBits_one]
        rfl
      · rw [traversalBits, if_neg hn, List.reverse_cons, walkNode_append]
        have hrec : n / 2 ≤ f := by omega
        rw [ih (n / 2) (by omega) hrec, walkNode_one]
        by_cases hpar : n % 2 = 0
        · rw [if_pos hpar]; omega
        · rw [if_neg hpar]; omega

lemma walkNode_traversal {n : Nat} (hn : 1 ≤ n) :
    walkNode 1 (traversalBits n).reverse = n :=
  walkNode_traversal_aux n n hn le_rfl

lemma traversalBits_length_aux :
    ∀ f n, n ≤ f → (traversalBits n).length = Nat.log2 n := by
  intro f
  induction f with
  | zero =>
      intro n h2
      have h0 : n = 0 := by omega
      subst h0
      rw [traversalBits, if_pos (by omega), Nat.log2]
      rfl
  | succ f ih =>
      intro n h2
      by_cases hn : n ≤ 1
      · rw [traversalBits, if_pos hn, Nat.log2, if_neg (by omega)]
        rfl
      · rw [traversalBits, if_neg hn, List.length_cons,
          ih (n / 2) (by omega)]
        conv_rhs => rw [Nat.log2]
        rw [if_pos (by omega : n ≥ 2)]

lemma traversalBits_length (n : Nat) :
    (traversalBits n).length = Nat.log2 n :=
  traversalBits_length_aux n n le_rfl

lemma traversalBits_half (n : Nat) :
    traversalBits (n / 2) = (traversalBits n).drop 1 := by
  by_cases hn : n ≤ 1
  · have h0 : n / 2 = 0 := by omega
    rw [h0, traversalBits, if_pos (by omega), traversalBits, if_pos hn]
    rfl
  · conv_rhs => rw [traversalBits, if_neg hn]
    rfl

lemma traversalBits_div_pow : ∀ (r n : Nat),
    traversalBits (n / 2 ^ r) = (traversalBits n).drop r := by
  intro r
  induction r with
  | zero => intro n; simp [Nat.pow_zero, Nat.div_one]
  | succ r ih =>
      intro n
      have h1 : n / 2 ^ (r + 1) = n / 2 / 2 ^ r := by
        rw [Nat.div_div_eq_div_mul]
        congr 1
        ring
      rw [h1, ih (n / 2), traversalBits_half, List.drop_drop]
      congr 1
      omega

end ChannelKeyDerivation

namespace ChannelKeyDerivation

lemma traversal_take {L p : Nat} (hp : p ≤ (traversalBits L).length) :
    (traversalBits L).reverse.take p =
      (traversalBits (L / 2 ^ ((traversalBits L).length - p))).reverse := by
  rw [traversalBits_div_pow]
  conv_lhs =>
    rw [show traversalBits L =
        (traversalBits L).take ((traversalBits L).length - p) ++
          (traversalBits L).drop ((traversalBits L).length - p) from
      (List.take_append_drop _ _).symm]
  rw [List.reverse_append]
  apply List.take_left'
  rw [List.length_reverse, List.length_drop]
  omega

lemma traversal_drop {L p : Nat} (hp : p ≤ (traversalBits L).length) :
    (traversalBits L).reverse.drop p =
      ((traversalBits L).take ((traversalBits L).length - p)).reverse := by
  conv_lhs =>
    rw [show traversalBits L =
        (traversalBits L).take ((traversalBits L).length - p) ++
          (traversalBits L).drop ((traversalBits L).length - p) from
      (List.take_append_drop _ _).symm]
  rw [List.reverse_append]
  apply List.drop_left'
  rw [List.length_reverse, List.length_drop]
  omega

lemma findClosestAux_cons (nodes : List ChannelTreeNode) (b : Nat)
    (rest : List Nat) (idx curr : Nat)
    (closest : Option (ChannelTreeNode × Nat)) :
    findClosestAux nodes (b :: rest) idx curr closest =
      findClosestAux nodes rest (idx + 1)
        (if b = 0 then curr * 2 else curr * 2 + 1)
        (match nodes.filter
            (fun k => k.node_num == (if b = 0 then curr * 2 else curr * 2 + 1)) with
         | [] => closest
         | kk :: _ => some (kk, idx + 1)) := rfl

lemma findClosestAux_no_hit (nodes : List ChannelTreeNode) :
    ∀ (bits : List Nat) (c idx : Nat) (closest : Option (ChannelTreeNode × Nat)),
      (∀ pre b suf, bits = pre ++ b :: suf →
        nodes.filter (fun k => k.node_num == walkNode c (pre ++ [b])) = []) →
      findClosestAux nodes bits idx c closest = closest := by
  intro bits
  induction bits with
  | nil => intro c idx closest h; rfl
  | cons b rest ih =>
      intro c idx closest h
      rw [findClosestAux_cons]
      have h0 := h [] b rest rfl
      rw [List.nil_append, walkNode_one] at h0
      rw [h0]
      apply ih
      intro p2 b2 suf2 hd
      have h1 := h (b :: p2) b2 suf2 (by rw [hd]; rfl)
      rw [show ((b :: p2) ++ [b2]) = [b] ++ (p2 ++ [b2]) from rfl,
        walkNode_append, walkNode_one] at h1
      exact h1

lemma findClosestAux_last_hit (nodes : List ChannelTreeNode)
    (kk : ChannelTreeNode) (tl : List ChannelTreeNode) :
    ∀ (pre2 : List Nat) (c idx : Nat)
      (closest : Option (ChannelTreeNode × Nat)) (bg : Nat) (suf : List Nat),
      nodes.filter (fun k => k.node_num == walkNode c (pre2 ++ [bg])) = kk :: tl →
      (∀ p2 b2 suf2, suf = p2 ++ b2 :: suf2 →
        nodes.filter
          (fun k => k.node_num == walkNode c (pre2 ++ bg :: p2 ++ [b2])) = []) →
      findClosestAux nodes (pre2 ++ bg :: suf) idx c closest =
        some (kk, idx + pre2.length + 1) := by
  intro pre2
  induction pre2 with
  | nil =>
      intro c idx closest bg suf hfil hafter
      rw [List.nil_append, findClosestAux_cons]
      have h0 : nodes.filter
          (fun k => k.node_num == (if bg = 0 then c * 2 else c * 2 + 1)) =
            kk :: tl := by
        rw [← walkNode_one]
        rw [List.nil_append] at hfil
        exact hfil
      rw [h0]
      rw [findClosestAux_no_hit]
      · simp
      · intro p2 b2 suf2 hd
        have h1 := hafter p2 b2 suf2 hd
        rw [List.nil_append,
          show (bg :: p2 ++ [b2]) = [bg] ++ (p2 ++ [b2]) from rfl,
          walkNode_append, walkNode_one] at h1
        exact h1
  | cons b p ih =>
      intro c idx closest bg suf hfil hafter
      rw [List.cons_append, findClosestAux_cons]
      have hfil2 : nodes.filter
          (fun k => k.node_num ==
            walkNode (if b = 0 then c * 2 else c * 2 + 1) (p ++ [bg])) =
          kk :: tl := by
        rw [← walkNode_one, ← walkNode_append]
        exact hfil
      have hafter2 : ∀ p2 b2 suf2, suf = p2 ++ b2 :: suf2 →
          nodes.filter (fun k => k.node_num ==
            walkNode (if b = 0 then c * 2 else c * 2 + 1)
              (p ++ bg :: p2 ++ [b2])) = [] := by
        intro p2 b2 suf2 hd
        have h1 := hafter p2 b2 suf2 hd
        rw [show (b :: p ++ bg :: p2 ++ [b2]) =
            [b] ++ (p ++ bg :: p2 ++ [b2]) from rfl,
          walkNode_append, walkNode_one] at h1
        exact h1
      rw [ih _ (idx + 1) _ bg suf hfil2 hafter2]
      congr 2
      rw [List.length_cons]
      omega

namespace CoverSpec2

open ChannelKeyDerivation CoverSpec

lemma filter_map_keys (md5 : Bytes → Bytes) (self : ChannelKeyDerivation)
    (m : Nat) (l : List Nat) :
    (l.map (self.get_key_for_node md5)).filter (fun k => k.node_num == m) =
      (l.filter (fun n => n == m)).map (self.get_key_for_node md5) := by
  induction l with
  | nil => rfl
  | cons a l ih =>
      simp only [List.map_cons, List.filter_cons]
      by_cases ham : a = m
      · simp [get_key_for_node, ham, ih]
      · simp [get_key_for_node, ham, ih]

lemma filter_nil_of_not_mem {m : Nat} {l : List Nat} (hm : m ∉ l) :
    l.filter (fun n => n == m) = [] := by
  rw [List.filter_eq_nil_iff]
  intro a ha hb
  rw [beq_iff_eq] at hb
  exact hm (hb ▸ ha)

lemma filter_head_of_mem {m : Nat} {l : List Nat} (hm : m ∈ l) :
    ∃ tl, l.filter (fun n => n == m) = m :: tl := by
  induction l with
  | nil => cases hm
  | cons a l ih =>
      rw [List.mem_cons] at hm
      by_cases ham : a = m
      · subst ham
        refine ⟨l.filter (fun n => n == a), ?_⟩
        rw [List.filter_cons, if_pos (by simp)]
      · rcases hm with rfl | hm
        · exact absurd rfl ham
        · obtain ⟨tl, htl⟩ := ih hm
          refine ⟨tl, ?_⟩
          rw [List.filter_cons, if_neg (by simp [ham]), htl]

lemma keyed_filter_nil (md5 : Bytes → Bytes) (self : ChannelKeyDerivation)
    {m : Nat} {l : List Nat} (hm : m ∉ l) :
    (l.map (self.get_key_for_node md5)).filter (fun k => k.node_num == m) = [] := by
  rw [filter_map_keys, filter_nil_of_not_mem hm]
  rfl

lemma keyed_filter_head (md5 : Bytes → Bytes) (self : ChannelKeyDerivation)
    {m : Nat} {l : List Nat} (hm : m ∈ l) :
    ∃ tl, (l.map (self.get_key_for_node md5)).filter (fun k => k.node_num == m) =
      self.get_key_for_node md5 m :: tl := by
  obtain ⟨tl, htl⟩ := filter_head_of_mem hm
  refine ⟨tl.map (self.get_key_for_node md5), ?_⟩
  rw [filter_map_keys, htl, List.map_cons]

lemma ancestor_covers {H t p : Nat} (ht : t < 2 ^ H) (hp : p ≤ H) :
    validNode H ((t + 2 ^ H) / 2 ^ (H - p)) ∧
      nodeDepth ((t + 2 ^ H) / 2 ^ (H - p)) = p ∧
      nodeLo H ((t + 2 ^ H) / 2 ^ (H - p)) ≤ t ∧
      t ≤ nodeHi H ((t + 2 ^ H) / 2 ^ (H - p)) := by
  set m := (t + 2 ^ H) / 2 ^ (H - p) with hm
  have hsp : 0 < 2 ^ (H - p) := two_pow_pos _
  have hppow : 2 ^ p * 2 ^ (H - p) = 2 ^ H := by
    rw [← pow_add]
    congr 1
    omega
  have hple : 2 ^ p ≤ m := by
    rw [hm, Nat.le_div_iff_mul_le hsp, hppow]
    omega
  have hplt : m < 2 ^ (p + 1) := by
    rw [hm, Nat.div_lt_iff_lt_mul hsp]
    have h2 : 2 ^ (p + 1) * 2 ^ (H - p) = 2 * 2 ^ H := by
      rw [← hppow]
      ring
    omega
  have hdep : nodeDepth m = p := nodeDepth_eq hple hplt
  have hpow2 : 2 ^ (p + 1) ≤ 2 ^ (H + 1) := Nat.pow_le_pow_right (by omega) (by omega)
  have hv : validNode H m := ⟨by have := two_pow_pos p; omega, by omega⟩
  refine ⟨hv, hdep, ?_, ?_⟩ <;>
  · simp only [nodeHi, nodeLo, nodeSpan]
    rw [hdep]
    have hdm := Nat.div_add_mod (t + 2 ^ H) (2 ^ (H - p))
    have hmod : (t + 2 ^ H) % 2 ^ (H - p) < 2 ^ (H - p) :=
      Nat.mod_lt _ hsp
    have hsub : (m - 2 ^ p) * 2 ^ (H - p) = m * 2 ^ (H - p) - 2 ^ H := by
      rw [Nat.sub_mul, hppow]
    have hAB : 2 ^ H ≤ m * 2 ^ (H - p) := by
      calc 2 ^ H = 2 ^ p * 2 ^ (H - p) := hppow.symm
        _ ≤ m * 2 ^ (H - p) := Nat.mul_le_mul_right _ hple
    have hcomm : 2 ^ (H - p) * m = m * 2 ^ (H - p) := Nat.mul_comm _ _
    rw [← hm] at hdm
    omega

lemma covering_ancestor {H n t : Nat} (hv : validNode H n) (ht : t < 2 ^ H)
    (hlo : nodeLo H n ≤ t) (hhi : t ≤ nodeHi H n) :
    n = (t + 2 ^ H) / 2 ^ (H - nodeDepth n) := by
  set d := nodeDepth n with hd0
  have hd : d ≤ H := nodeDepth_le hv
  have h1 : 2 ^ d ≤ n := nodeDepth_pow_le hv.1
  have h2 : n < 2 ^ (d + 1) := lt_nodeDepth_pow n hv.1
  have hsp : 0 < 2 ^ (H - d) := two_pow_pos _
  have hppow : 2 ^ d * 2 ^ (H - d) = 2 ^ H := by
    rw [← pow_add]
    congr 1
    omega
  unfold nodeHi at hhi
  unfold nodeLo nodeSpan at hlo hhi
  rw [← hd0] at hlo hhi
  have hsub : (n - 2 ^ d) * 2 ^ (H - d) = n * 2 ^ (H - d) - 2 ^ H := by
    rw [Nat.sub_mul, hppow]
  have hAB : 2 ^ H ≤ n * 2 ^ (H - d) := by
    calc 2 ^ H = 2 ^ d * 2 ^ (H - d) := hppow.symm
      _ ≤ n * 2 ^ (H - d) := Nat.mul_le_mul_right _ h1
  have hstep : (n + 1) * 2 ^ (H - d) = n * 2 ^ (H - d) + 2 ^ (H - d) := by
    ring
  symm
  apply Nat.div_eq_of_lt_le
  · omega
  · omega

end CoverSpec2

namespace CoverSpec2

open ChannelKeyDerivation CoverSpec

lemma gffc_reduce_none (md5 : Bytes → Bytes) (self : ChannelKeyDerivation)
    (nodes : List ChannelTreeNode) (t : Nat)
    (h0 : nodes.filter (fun k => k.node_num == 1) = [])
    (h1 : findClosestAux nodes (traversalBits (t + 2 ^ self.height)).reverse 0 1
      none = none) :
    get_frame_key_from_cover md5 self nodes t = none := by
  show (match findClosestAux nodes (traversalBits (t + 2 ^ self.height)).reverse 0 1
      (match nodes.filter (fun k => k.node_num == 1) with
       | [] => none
       | kk :: _ => some (kk, 0)) with
    | none => none
    | some (closest, closestIdx) =>
        some (applyBits md5 closest.key
          ((traversalBits (t + 2 ^ self.height)).reverse.drop closestIdx))) = none
  rw [h0]
  show (match findClosestAux nodes (traversalBits (t + 2 ^ self.height)).reverse 0 1
      none with
    | none => none
    | some (closest, closestIdx) =>
        some (applyBits md5 closest.key
          ((traversalBits (t + 2 ^ self.height)).reverse.drop closestIdx))) = none
  rw [h1]

lemma gffc_reduce_some (md5 : Bytes → Bytes) (self : ChannelKeyDerivation)
    (nodes : List ChannelTreeNode) (t : Nat) (closest : ChannelTreeNode)
    (ci : Nat)
    (h1 : findClosestAux nodes (traversalBits (t + 2 ^ self.height)).reverse 0 1
        (match nodes.filter (fun k => k.node_num == 1) with
         | [] => none
         | kk :: _ => some (kk, 0)) = some (closest, ci)) :
    get_frame_key_from_cover md5 self nodes t =
      some (applyBits md5 closest.key
        ((traversalBits (t + 2 ^ self.height)).reverse.drop ci)) := by
  show (match findClosestAux nodes (traversalBits (t + 2 ^ self.height)).reverse 0 1
      (match nodes.filter (fun k => k.node_num == 1) with
       | [] => none
       | kk :: _ => some (kk, 0)) with
    | none => none
    | some (closest, closestIdx) =>
        some (applyBits md5 closest.key
          ((traversalBits (t + 2 ^ self.height)).reverse.drop closestIdx))) =
      some (applyBits md5 closest.key
        ((traversalBits (t + 2 ^ self.height)).reverse.drop ci))
  rw [h1]

lemma take_prefix_eq {α : Type} (a b : List α) (x : α) :
    ((a ++ [x]) ++ b).take (a.length + 1) = a ++ [x] := by
  apply List.take_left'
  simp

lemma walk_take {L p : Nat} (hlen : (traversalBits L).length = 64)
    (hL1 : 2 ^ 64 ≤ L) (hp : p ≤ 64) :
    walkNode 1 ((traversalBits L).reverse.take p) = L / 2 ^ (64 - p) := by
  have h := traversal_take (L := L) (p := p) (by omega)
  rw [hlen] at h
  rw [h]
  apply walkNode_traversal
  have hle : 2 ^ (64 - p) ≤ L :=
    le_trans (Nat.pow_le_pow_right (by omega) (by omega)) hL1
  exact (Nat.one_le_div_iff (two_pow_pos _)).2 hle

lemma walk_decomp {L : Nat} (hlen : (traversalBits L).length = 64)
    (hL1 : 2 ^ 64 ≤ L) {pre : List Nat} {b : Nat} {suf : List Nat}
    (hd : (traversalBits L).reverse = pre ++ b :: suf) :
    pre.length + 1 ≤ 64 ∧
      walkNode 1 (pre ++ [b]) = L / 2 ^ (64 - (pre.length + 1)) := by
  have hlength := congrArg List.length hd
  rw [List.length_reverse, hlen, List.length_append, List.length_cons] at hlength
  have hple : pre.length + 1 ≤ 64 := by omega
  refine ⟨hple, ?_⟩
  have htake : (traversalBits L).reverse.take (pre.length + 1) = pre ++ [b] := by
    rw [hd, show pre ++ b :: suf = (pre ++ [b]) ++ suf from by simp]
    exact take_prefix_eq pre suf b
  rw [← htake]
  exact walk_take hlen hL1 hple

lemma cover_key_out_range {md5 : Bytes → Bytes} {root : Bytes}
    {start e t : Nat} (h1 : start ≤ e) (he : e < 2 ^ 64) (ht : t < 2 ^ 64)
    (hout : t < start ∨ e < t) :
    get_frame_key_from_cover md5 ⟨root, 64⟩
      ((greedyCover 64 e start).map
        ((⟨root, 64⟩ : ChannelKeyDerivation).get_key_for_node md5)) t = none := by
  have htiles : tiles 64 (greedyCover 64 e start) start e :=
    greedyCover_tiles he (e + 1 - start) start le_rfl h1
  have hL1 : 2 ^ 64 ≤ t + 2 ^ 64 := by omega
  have hL2 : t + 2 ^ 64 < 2 ^ 65 := by omega
  have hlen : (traversalBits (t + 2 ^ 64)).length = 64 := by
    rw [traversalBits_length]
    exact nodeDepth_eq hL1 hL2
  have hnomem : ∀ p, p ≤ 64 →
      (t + 2 ^ 64) / 2 ^ (64 - p) ∉ greedyCover 64 e start := by
    intro p hp hmem
    obtain ⟨hv2, hd2, hlo2, hhi2⟩ :=
      ancestor_covers (H := 64) (t := t) (p := p) ht hp
    have hb := tiles_mem_bounds _ _ _ htiles _ hmem
    omega
  have h10 : (t + 2 ^ 64) / 2 ^ (64 - 0) = 1 := by
    rw [Nat.sub_zero]
    exact Nat.div_eq_of_lt_le (by omega) (by omega)
  have hione : (1 : Nat) ∉ greedyCover 64 e start := by
    intro hmem
    exact hnomem 0 (by omega) (by rw [h10]; exact hmem)
  have hC0 : ((greedyCover 64 e start).map
      ((⟨root, 64⟩ : ChannelKeyDerivation).get_key_for_node md5)).filter
        (fun k => k.node_num == 1) = [] :=
    keyed_filter_nil md5 _ hione
  have hnh : findClosestAux
      ((greedyCover 64 e start).map
        ((⟨root, 64⟩ : ChannelKeyDerivation).get_key_for_node md5))
      (traversalBits (t + 2 ^ 64)).reverse 0 1 none = none := by
    apply findClosestAux_no_hit
    intro pre b suf hd
    obtain ⟨hple2, hwalk2⟩ := walk_decomp hlen hL1 hd
    rw [hwalk2]
    exact keyed_filter_nil md5 _ (hnomem _ hple2)
  exact gffc_reduce_none md5 ⟨root, 64⟩ _ t hC0 hnh

end CoverSpec2

namespace CoverSpec2

open ChannelKeyDerivation CoverSpec

lemma cover_key_in_range {md5 : Bytes → Bytes} {root : Bytes}
    {start e t : Nat} (h1 : start ≤ e) (he : e < 2 ^ 64)
    (h3 : start ≤ t) (h4 : t ≤ e) :
    get_frame_key_from_cover md5 ⟨root, 64⟩
      ((greedyCover 64 e start).map
        ((⟨root, 64⟩ : ChannelKeyDerivation).get_key_for_node md5)) t =
      some (get_frame_key md5 ⟨root, 64⟩ t) := by
  have ht : t < 2 ^ 64 := by omega
  have htiles : tiles 64 (greedyCover 64 e start) start e :=
    greedyCover_tiles he (e + 1 - start) start le_rfl h1
  obtain ⟨g, hgmem, hgcov⟩ := (tiles_union _ _ _ htiles t).1 ⟨h3, h4⟩
  obtain ⟨hglo, hghi⟩ := hgcov
  have hgv : validNode 64 g := (tiles_mem_bounds _ _ _ htiles g hgmem).1
  have hgd : nodeDepth g ≤ 64 := nodeDepth_le hgv
  have hL1 : 2 ^ 64 ≤ t + 2 ^ 64 := by omega
  have hL2 : t + 2 ^ 64 < 2 ^ 65 := by omega
  have hlen : (traversalBits (t + 2 ^ 64)).length = 64 := by
    rw [traversalBits_length]
    exact nodeDepth_eq hL1 hL2
  have hganc : g = (t + 2 ^ 64) / 2 ^ (64 - nodeDepth g) :=
    covering_ancestor hgv ht hglo hghi
  have hanc_not : ∀ p, p ≤ 64 → p ≠ nodeDepth g →
      (t + 2 ^ 64) / 2 ^ (64 - p) ∉ greedyCover 64 e start := by
    intro p hp hne hmem
    obtain ⟨hv2, hd2, hlo2, hhi2⟩ :=
      ancestor_covers (H := 64) (t := t) (p := p) ht hp
    have huniq := tiles_unique htiles hmem hgmem ⟨hlo2, hhi2⟩ ⟨hglo, hghi⟩
    exact hne (by rw [← hd2, huniq])
  have hkey_comp :
      applyBits md5
          (((⟨root, 64⟩ : ChannelKeyDerivation).get_key_for_node md5 g).key)
          ((traversalBits (t + 2 ^ 64)).reverse.drop (nodeDepth g)) =
        get_frame_key md5 (⟨root, 64⟩ : ChannelKeyDerivation) t := by
    have hkeyg : ((⟨root, 64⟩ : ChannelKeyDerivation).get_key_for_node md5 g).key =
        applyBits md5 root (traversalBits g).reverse := rfl
    rw [hkeyg, ← applyBits_append]
    have htbg : traversalBits g =
        (traversalBits (t + 2 ^ 64)).drop (64 - nodeDepth g) := by
      conv_lhs => rw [hganc]
      exact traversalBits_div_pow _ _
    have hsplit : (traversalBits g).reverse ++
        (traversalBits (t + 2 ^ 64)).reverse.drop (nodeDepth g) =
        (traversalBits (t + 2 ^ 64)).reverse := by
      have hdr := traversal_drop (L := t + 2 ^ 64) (p := nodeDepth g)
        (by rw [hlen]; omega)
      rw [hlen] at hdr
      rw [hdr, htbg, ← List.reverse_append, List.take_append_drop]
    rw [hsplit]
    rfl
  by_cases hdg : nodeDepth g = 0
  · -- the cover node is the root: the initial check finds it, no later hit
    have hg1 : g = 1 := by
      have ha := nodeDepth_pow_le hgv.1
      have hb := lt_nodeDepth_pow g hgv.1
      rw [hdg] at ha hb
      omega
    obtain ⟨tl, hfil⟩ := keyed_filter_head md5
      (⟨root, 64⟩ : ChannelKeyDerivation) (m := 1) (hg1 ▸ hgmem)
    have hC0 : (match ((greedyCover 64 e start).map
          ((⟨root, 64⟩ : ChannelKeyDerivation).get_key_for_node md5)).filter
            (fun k => k.node_num == 1) with
        | [] => (none : Option (ChannelTreeNode × Nat))
        | kk :: _ => some (kk, 0)) =
          some ((⟨root, 64⟩ : ChannelKeyDerivation).get_key_for_node md5 1, 0) := by
      rw [hfil]
    have hfca : findClosestAux
        ((greedyCover 64 e start).map
          ((⟨root, 64⟩ : ChannelKeyDerivation).get_key_for_node md5))
        (traversalBits (t + 2 ^ 64)).reverse 0 1
        (match ((greedyCover 64 e start).map
            ((⟨root, 64⟩ : ChannelKeyDerivation).get_key_for_node md5)).filter
              (fun k => k.node_num == 1) with
         | [] => none
         | kk :: _ => some (kk, 0)) =
          some ((⟨root, 64⟩ : ChannelKeyDerivation).get_key_for_node md5 1, 0) := by
      rw [hC0]
      apply findClosestAux_no_hit
      intro pre b suf hd
      obtain ⟨hple2, hwalk2⟩ := walk_decomp hlen hL1 hd
      rw [hwalk2]
      exact keyed_filter_nil md5 _ (hanc_not _ hple2 (by omega))
    rw [gffc_reduce_some md5 ⟨root, 64⟩ _ t _ 0 hfca]
    rw [List.drop_zero]
    have hkey1 : ((⟨root, 64⟩ : ChannelKeyDerivation).get_key_for_node md5 1).key =
        root := by
      show applyBits md5 root (traversalBits 1).reverse = root
      rw [traversalBits_one]
      rfl
    rw [hkey1]
    have hfk : get_frame_key md5 (⟨root, 64⟩ : ChannelKeyDerivation) t =
        applyBits md5 root (traversalBits (t + 2 ^ 64)).reverse := rfl
    rw [hfk]
  · -- the cover node is deeper: the scan's last hit is at its depth
    have hd1 : 1 ≤ nodeDepth g := by omega
    rcases List.eq_nil_or_concat
        ((traversalBits (t + 2 ^ 64)).reverse.take (nodeDepth g)) with
      hnil | ⟨pre, bg, hconcat⟩
    · exfalso
      have hl0 := congrArg List.length hnil
      rw [List.length_take, List.length_reverse, hlen, List.length_nil] at hl0
      omega
    rw [List.concat_eq_append] at hconcat
    have hdecomp : (traversalBits (t + 2 ^ 64)).reverse =
        pre ++ bg :: (traversalBits (t + 2 ^ 64)).reverse.drop (nodeDepth g) := by
      conv_lhs =>
        rw [← List.take_append_drop (nodeDepth g)
          (traversalBits (t + 2 ^ 64)).reverse]
      rw [hconcat]
      simp
    have hprelen : pre.length + 1 = nodeDepth g := by
      have hl0 := congrArg List.length hconcat
      rw [List.length_take, List.length_reverse, hlen, List.length_append,
        List.length_cons, List.length_nil] at hl0
      omega
    have hwg : walkNode 1 (pre ++ [bg]) = g := by
      rw [← hconcat]
      have hwt := walk_take (L := t + 2 ^ 64) (p := nodeDepth g) hlen hL1 hgd
      rw [hwt, ← hganc]
    obtain ⟨tl, hfil⟩ := keyed_filter_head md5
      (⟨root, 64⟩ : ChannelKeyDerivation) (m := g) hgmem
    have hfca : findClosestAux
        ((greedyCover 64 e start).map
          ((⟨root, 64⟩ : ChannelKeyDerivation).get_key_for_node md5))
        (traversalBits (t + 2 ^ 64)).reverse 0 1
        (match ((greedyCover 64 e start).map
            ((⟨root, 64⟩ : ChannelKeyDerivation).get_key_for_node md5)).filter
              (fun k => k.node_num == 1) with
         | [] => none
         | kk :: _ => some (kk, 0)) =
          some ((⟨root, 64⟩ : ChannelKeyDerivation).get_key_for_node md5 g,
            nodeDepth g) := by
      conv_lhs => rw [hdecomp]
      have hres := findClosestAux_last_hit
        ((greedyCover 64 e start).map
          ((⟨root, 64⟩ : ChannelKeyDerivation).get_key_for_node md5))
        ((⟨root, 64⟩ : ChannelKeyDerivation).get_key_for_node md5 g) tl
        pre 1 0
        (match ((greedyCover 64 e start).map
            ((⟨root, 64⟩ : ChannelKeyDerivation).get_key_for_node md5)).filter
              (fun k => k.node_num == 1) with
         | [] => (none : Option (ChannelTreeNode × Nat))
         | kk :: _ => some (kk, 0)) bg
        ((traversalBits (t + 2 ^ 64)).reverse.drop (nodeDepth g))
        (by rw [hwg]; exact hfil)
        ?_
      · rw [hres]
        congr 2
        omega
      · intro p2 b2 suf2 hdsuf
        have hd2 : (traversalBits (t + 2 ^ 64)).reverse =
            (pre ++ bg :: p2) ++ b2 :: suf2 := by
          rw [hdecomp, hdsuf]
          simp
        obtain ⟨hple2, hwalk2⟩ := walk_decomp hlen hL1 hd2
        have heq2 : pre ++ bg :: p2 ++ [b2] = (pre ++ bg :: p2) ++ [b2] := by
          simp
        rw [heq2, hwalk2]
        apply keyed_filter_nil
        apply hanc_not _ hple2
        have hl3 : (pre ++ bg :: p2).length = pre.length + p2.length + 1 := by
          rw [List.length_append, List.length_cons]
          omega
        omega
    rw [gffc_reduce_some md5 ⟨root, 64⟩ _ t _ (nodeDepth g) hfca]
    rw [hkey_comp]

end CoverSpec2

open CoverSpec2 in
/-- C2: for `0 ≤ start ≤ end ≤ 2^64 − 1` and any timestamp `t` in
`[start, end]`, deriving the frame key from the keyed cover
`get_channel_keys(start, end)` gives exactly the directly derived leaf key
`get_frame_key(t)`. -/
theorem claim_C2_cover_key (md5 : Bytes → Bytes) (root : Bytes)
    (start e t : Nat) (h1 : start ≤ e) (h2 : e ≤ 2 ^ 64 - 1)
    (h3 : start ≤ t) (h4 : t ≤ e) :
    ∃ ks, (ChannelKeyDerivation.mk root 64).get_channel_keys md5 start e =
        some ks ∧
      (ChannelKeyDerivation.mk root 64).get_frame_key_from_cover md5 ks t =
        some ((ChannelKeyDerivation.mk root 64).get_frame_key md5 t) := by
  refine ⟨(greedyCover 64 e start).map
      ((ChannelKeyDerivation.mk root 64).get_key_for_node md5), ?_, ?_⟩
  · unfold ChannelKeyDerivation.get_channel_keys
    rw [get_covering_nodes_eq h1 h2]
    rfl
  · exact cover_key_in_range h1 (by omega) h3 h4

/-- C2 witness: the round trip at the concrete range `[0, 2]`, timestamp
`1`, with a concrete compression function. -/
theorem claim_C2_cover_key_witness :
    (0 ≤ 2 ∧ (2 : Nat) ≤ 2 ^ 64 - 1 ∧ 0 ≤ 1 ∧ (1 : Nat) ≤ 2) ∧
      (∃ ks, (ChannelKeyDerivation.mk [5] 64).get_channel_keys
          (fun b => 9 :: b.take 3) 0 2 = some ks ∧
        (ChannelKeyDerivation.mk [5] 64).get_frame_key_from_cover
            (fun b => 9 :: b.take 3) ks 1 =
          some ((ChannelKeyDerivation.mk [5] 64).get_frame_key
            (fun b => 9 :: b.take 3) 1)) :=
  ⟨⟨by decide, by decide, by decide, by decide⟩,
    claim_C2_cover_key (fun b => 9 :: b.take 3) [5] 0 2 1
      (by decide) (by decide) (by decide) (by decide)⟩

open CoverSpec2 in
/-- C6: for `0 ≤ start ≤ end ≤ 2^64 − 1` and any timestamp `t ≤ 2^64 − 1`
outside `[start, end]`, `get_frame_key_from_cover` on the cover produced for
`[start, end]` raises (returns no key); the embedded `none` is the `raise`
on line 205 (the code's generic `Exception` playing the spec's
`NotCoveredError` role). -/
theorem claim_C6_outside_range (md5 : Bytes → Bytes) (root : Bytes)
    (start e t : Nat) (h1 : start ≤ e) (h2 : e ≤ 2 ^ 64 - 1)
    (h3 : t ≤ 2 ^ 64 - 1) (h4 : t < start ∨ e < t) :
    ∃ ks, (ChannelKeyDerivation.mk root 64).get_channel_keys md5 start e =
        some ks ∧
      (ChannelKeyDerivation.mk root 64).get_frame_key_from_cover md5 ks t =
        none := by
  refine ⟨(greedyCover 64 e start).map
      ((ChannelKeyDerivation.mk root 64).get_key_for_node md5), ?_, ?_⟩
  · unfold ChannelKeyDerivation.get_channel_keys
    rw [get_covering_nodes_eq h1 h2]
    rfl
  · exact cover_key_out_range h1 (by omega) (by omega) h4

/-- C6 witness: a timestamp beyond the subscribed range `[0, 2]` yields no
key. -/
theorem claim_C6_outside_range_witness :
    (0 ≤ 2 ∧ (2 : Nat) ≤ 2 ^ 64 - 1 ∧ (5 : Nat) ≤ 2 ^ 64 - 1 ∧
        ((5 : Nat) < 0 ∨ (2 : Nat) < 5)) ∧
      (∃ ks, (ChannelKeyDerivation.mk [5] 64).get_channel_keys
          (fun b => 9 :: b.take 3) 0 2 = some ks ∧
        (ChannelKeyDerivation.mk [5] 64).get_frame_key_from_cover
            (fun b => 9 :: b.take 3) ks 5 = none) :=
  ⟨⟨by decide, by decide, by decide, by decide⟩,
    claim_C6_outside_range (fun b => 9 :: b.take 3) [5] 0 2 5
      (by decide) (by decide) (by decide) (by decide)⟩

/-! ## `gen_secrets` shape lemmas -/

lemma map_fst_overwrite (d : List (Nat × String)) (k : Nat) (v : String) :
    (d.map (fun p => if p.1 == k then (k, v) else p)).map Prod.fst =
      d.map Prod.fst := by
  induction d with
  | nil => rfl
  | cons a d ih =>
      simp only [List.map_cons, ih]
      by_cases hp : a.1 = k
      · simp [hp]
      · simp [hp]

lemma dictInsert_keys (d : List (Nat × String)) (k : Nat) (v : String) :
    (dictInsert d k v).map Prod.fst =
      if d.any (fun p => p.1 == k) then d.map Prod.fst
      else d.map Prod.fst ++ [k] := by
  unfold dictInsert
  by_cases h : d.any (fun p => p.1 == k)
  · rw [if_pos h, if_pos h]
    exact map_fst_overwrite d k v
  · rw [if_neg h, if_neg h, List.map_append]
    rfl

lemma dictInsert_mem_keys (d : List (Nat × String)) (k : Nat) (v : String)
    (k2 : Nat) :
    k2 ∈ (dictInsert d k v).map Prod.fst ↔
      k2 ∈ d.map Prod.fst ∨ k2 = k := by
  rw [dictInsert_keys]
  by_cases hc : d.any (fun p => p.1 == k)
  · rw [if_pos hc]
    constructor
    · exact Or.inl
    · rintro (h | rfl)
      · exact h
      · rw [List.any_eq_true] at hc
        obtain ⟨p, hp, hbeq⟩ := hc
        rw [beq_iff_eq] at hbeq
        exact List.mem_map.2 ⟨p, hp, hbeq⟩
  · rw [if_neg hc]
    simp

lemma dictInsert_keys_nodup (d : List (Nat × String)) (k : Nat) (v : String)
    (h : (d.map Prod.fst).Nodup) :
    ((dictInsert d k v).map Prod.fst).Nodup := by
  rw [dictInsert_keys]
  by_cases hc : d.any (fun p => p.1 == k)
  · rw [if_pos hc]
    exact h
  · rw [if_neg hc]
    have hk : k ∉ d.map Prod.fst := by
      intro hmem
      obtain ⟨p, hp, hfst⟩ := List.mem_map.1 hmem
      apply hc
      rw [List.any_eq_true]
      exact ⟨p, hp, by rw [beq_iff_eq]; exact hfst⟩
    rw [List.nodup_append]
    refine ⟨h, List.nodup_singleton k, ?_⟩
    intro a ha hb
    rw [List.mem_singleton] at hb
    exact hk (hb ▸ ha)

lemma dictInsert_values (d : List (Nat × String)) (k : Nat) (v : String)
    (P : String → Prop) (hd : ∀ p ∈ d, P p.2) (hv : P v) :
    ∀ p ∈ dictInsert d k v, P p.2 := by
  intro p hp
  unfold dictInsert at hp
  split_ifs at hp
  · obtain ⟨q, hq, hfq⟩ := List.mem_map.1 hp
    by_cases hqk : q.1 == k
    · rw [if_pos hqk] at hfq
      rw [← hfq]
      exact hv
    · rw [if_neg hqk] at hfq
      rw [← hfq]
      exact hd q hq
  · rw [List.mem_append] at hp
    rcases hp with hp | hp
    · exact hd p hp
    · rw [List.mem_singleton] at hp
      rw [hp]
      exact hv

lemma secretsFold_keys (rand : Nat → Nat → Bytes) :
    ∀ (l : List Nat) (d : List (Nat × String)) (i k : Nat),
      (k ∈ ((l.foldl (fun (st : List (Nat × String) × Nat) ch =>
          (dictInsert st.1 ch (bytesHex (rand st.2 16)), st.2 + 1))
          (d, i)).1.map Prod.fst) ↔
        k ∈ d.map Prod.fst ∨ k ∈ l) := by
  intro l
  induction l with
  | nil => intro d i k; simp
  | cons ch l ih =>
      intro d i k
      rw [List.foldl_cons]
      rw [ih, dictInsert_mem_keys, List.mem_cons]
      tauto

lemma secretsFold_nodup (rand : Nat → Nat → Bytes) :
    ∀ (l : List Nat) (d : List (Nat × String)) (i : Nat),
      (d.map Prod.fst).Nodup →
      ((l.foldl (fun (st : List (Nat × String) × Nat) ch =>
          (dictInsert st.1 ch (bytesHex (rand st.2 16)), st.2 + 1))
          (d, i)).1.map Prod.fst).Nodup := by
  intro l
  induction l with
  | nil => intro d i h; exact h
  | cons ch l ih =>
      intro d i h
      rw [List.foldl_cons]
      exact ih _ _ (dictInsert_keys_nodup _ _ _ h)

lemma secretsFold_values (rand : Nat → Nat → Bytes) (P : String → Prop)
    (hP : ∀ j, P (bytesHex (rand j 16))) :
    ∀ (l : List Nat) (d : List (Nat × String)) (i : Nat),
      (∀ p ∈ d, P p.2) →
      ∀ p ∈ (l.foldl (fun (st : List (Nat × String) × Nat) ch =>
          (dictInsert st.1 ch (bytesHex (rand st.2 16)), st.2 + 1))
          (d, i)).1, P p.2 := by
  intro l
  induction l with
  | nil => intro d i h; exact h
  | cons ch l ih =>
      intro d i h
      rw [List.foldl_cons]
      exact ih _ _ (dictInsert_values _ _ _ P h (hP i))

lemma bytesHex_length (bs : Bytes) : (bytesHex bs).length = 2 * bs.length := by
  show (bs.flatMap
    (fun b => [Nat.digitChar (b / 16), Nat.digitChar (b % 16)])).length =
      2 * bs.length
  induction bs with
  | nil => rfl
  | cons b bs ih =>
      rw [List.flatMap_cons, List.length_append, ih, List.length_cons]
      simp
      omega

lemma digitChar_mem_hexDigits : ∀ d, d < 16 → Nat.digitChar d ∈ hexDigits := by
  decide

lemma bytesHex_mem (bs : Bytes) (hb : ∀ b ∈ bs, b < 256) :
    ∀ c ∈ (bytesHex bs).data, c ∈ hexDigits := by
  show ∀ c ∈ bs.flatMap
    (fun b => [Nat.digitChar (b / 16), Nat.digitChar (b % 16)]), c ∈ hexDigits
  intro c hc
  rw [List.mem_flatMap] at hc
  obtain ⟨b, hbmem, hcm⟩ := hc
  have hb256 := hb b hbmem
  rw [List.mem_cons, List.mem_singleton] at hcm
  rcases hcm with rfl | rfl
  · exact digitChar_mem_hexDigits _ (by omega)
  · exact digitChar_mem_hexDigits _ (by omega)

/-- C9: `gen_secrets` returns a JSON object with exactly the four top-level
keys `channels`, `decoder_dk`, `host_key_priv`, `host_key_pub`; the
`channels` object maps exactly the input channels plus channel `0` (each
once) to 32-hex-character (16-byte) values, and `decoder_dk` is a
64-hex-character (32-byte) value.  Hypotheses: the CSPRNG oracle returns
the requested number of bytes, each a byte value. -/
theorem claim_C9_gen_secrets_shape (rand : Nat → Nat → Bytes)
    (hostPriv hostPub : String) (channels : List Nat)
    (h1 : ∀ i n, (rand i n).length = n)
    (h2 : ∀ i n, ∀ b ∈ rand i n, b < 256) :
    ∃ cs : List (Nat × String), ∃ dk : String,
      (gen_secrets rand hostPriv hostPub channels).1 =
        Json.obj
          [("channels",
             Json.obj (cs.map (fun p => (toString p.1, Json.str p.2)))),
           ("decoder_dk", Json.str dk),
           ("host_key_priv", Json.str hostPriv),
           ("host_key_pub", Json.str hostPub)] ∧
      (gen_secrets rand hostPriv hostPub channels).1.topKeys =
        ["channels", "decoder_dk", "host_key_priv", "host_key_pub"] ∧
      (∀ k, k ∈ cs.map Prod.fst ↔ k ∈ channels ∨ k = 0) ∧
      (cs.map Prod.fst).Nodup ∧
      (∀ p ∈ cs, p.2.length = 32 ∧ ∀ c ∈ p.2.data, c ∈ hexDigits) ∧
      dk.length = 64 ∧ (∀ c ∈ dk.data, c ∈ hexDigits) := by
  refine ⟨((channels ++ [0]).foldl
      (fun (st : List (Nat × String) × Nat) ch =>
        (dictInsert st.1 ch (bytesHex (rand st.2 16)), st.2 + 1)) ([], 0)).1,
    bytesHex (rand ((channels ++ [0]).foldl
      (fun (st : List (Nat × String) × Nat) ch =>
        (dictInsert st.1 ch (bytesHex (rand st.2 16)), st.2 + 1)) ([], 0)).2 32),
    ?_, ?_, ?_, ?_, ?_, ?_, ?_⟩
  · rfl
  · rfl
  · intro k
    rw [secretsFold_keys]
    simp
  · exact secretsFold_nodup rand _ [] 0 List.nodup_nil
  · refine secretsFold_values rand
      (fun v => v.length = 32 ∧ ∀ c ∈ v.data, c ∈ hexDigits) ?_ _ [] 0
      (by intro p hp; cases hp)
    intro j
    constructor
    · rw [bytesHex_length, h1]
    · exact bytesHex_mem _ (h2 j 16)
  · rw [bytesHex_length, h1]
  · exact bytesHex_mem _ (h2 _ 32)

/-- C9 witness: the shape holds for the concrete channel list `[1]` with a
zero-filled CSPRNG oracle. -/
theorem claim_C9_gen_secrets_shape_witness :
    ((∀ i n, ((fun _ n => List.replicate n 0 : Nat → Nat → Bytes) i n).length = n) ∧
      (∀ i n, ∀ b ∈ (fun _ n => List.replicate n 0 : Nat → Nat → Bytes) i n,
        b < 256)) ∧
    (∃ cs : List (Nat × String), ∃ dk : String,
      (gen_secrets (fun _ n => List.replicate n 0) "a" "b" [1]).1 =
        Json.obj
          [("channels",
             Json.obj (cs.map (fun p => (toString p.1, Json.str p.2)))),
           ("decoder_dk", Json.str dk),
           ("host_key_priv", Json.str "a"),
           ("host_key_pub", Json.str "b")] ∧
      (gen_secrets (fun _ n => List.replicate n 0) "a" "b" [1]).1.topKeys =
        ["channels", "decoder_dk", "host_key_priv", "host_key_pub"] ∧
      (∀ k, k ∈ cs.map Prod.fst ↔ k ∈ [1] ∨ k = 0) ∧
      (cs.map Prod.fst).Nodup ∧
      (∀ p ∈ cs, p.2.length = 32 ∧ ∀ c ∈ p.2.data, c ∈ hexDigits) ∧
      dk.length = 64 ∧ (∀ c ∈ dk.data, c ∈ hexDigits)) :=
  ⟨⟨fun i n => by simp, fun i n b hb => by
      have hb2 := List.eq_of_mem_replicate hb
      omega⟩,
    claim_C9_gen_secrets_shape (fun _ n => List.replicate n 0) "a" "b" [1]
      (fun i n => by simp)
      (fun i n b hb => by
        have hb2 := List.eq_of_mem_replicate hb
        omega)⟩
